import Mathlib

/-!
Verification development for the AIGCAP coverage engine
(`tools/ai_coverage.py`) and its write-gating hook
(`dot-claude/hooks/check_aigcap.py`).

Python strings are modelled as `List Char` (`Str`).  Character-class
predicates (`\s`, `\d`, `\w`, `str.upper`, `str.lower`) are modelled on
their ASCII fragment, which is exact for every literal the program
manipulates.  Python's arbitrary-precision integers are `Nat`/`Int`.
The float products `total_lines * 0.75` / `total_lines * 0.25` are
modelled exactly: IEEE-754 binary64 round-to-nearest-even on the
53-bit significand (`rnd53`), with `int(...)` as the floor of the
resulting dyadic rational.  Binary64 overflow (near 2^1024) is not
modelled; it is unreachable for any line count considered here.
-/

/-- Characters of a string literal, the `Str` representation of Python text. -/
def S (s : String) : List Char := s.data

/-- Python text is modelled as its character sequence. -/
abbrev Str := List Char

/-- ASCII fragment of Python's `str.strip()` / regex `\s` whitespace class. -/
def pyIsSpace (c : Char) : Bool :=
  c = ' ' || c = '\t' || c = '\n' || c = '\r' || c = '\x0b' || c = '\x0c'

/-- Regex `\d`: a decimal digit. -/
def pyIsDigit (c : Char) : Bool :=
  48 ≤ c.toNat && c.toNat ≤ 57

/-- ASCII fragment of regex `\w`: letters, digits and underscore. -/
def pyIsWord (c : Char) : Bool :=
  pyIsDigit c || (65 ≤ c.toNat && c.toNat ≤ 90) || (97 ≤ c.toNat && c.toNat ≤ 122) || c = '_'

/-- Python's substring test `pat in s`. -/
def containsL : Str → Str → Bool
  | s, pat =>
    pat.isPrefixOf s ||
      match s with
      | [] => false
      | _ :: t => containsL t pat

/-- `List.isPrefixOf` decides the existence of a completing suffix. -/
theorem isPrefixOf_iff_ex (p s : Str) : p.isPrefixOf s = true ↔ ∃ t, s = p ++ t := by
  induction p generalizing s with
  | nil => simp [List.isPrefixOf]
  | cons c cs ih =>
    cases s with
    | nil => simp [List.isPrefixOf]
    | cons d ds =>
      simp only [List.isPrefixOf, Bool.and_eq_true, beq_iff_eq, ih, List.cons_append,
        List.cons.injEq]
      constructor
      · rintro ⟨rfl, t, rfl⟩; exact ⟨t, rfl, rfl⟩
      · rintro ⟨t, rfl, rfl⟩; exact ⟨rfl, t, rfl⟩

/-- `containsL` decides the existence of an occurrence. -/
theorem containsL_iff_ex (s pat : Str) : containsL s pat = true ↔ ∃ a b, s = a ++ pat ++ b := by
  induction s with
  | nil =>
    simp only [containsL, Bool.or_eq_true, isPrefixOf_iff_ex]
    constructor
    · rintro (⟨t, ht⟩ | h)
      · exact ⟨[], t, ht⟩
      · cases h
    · rintro ⟨a, b, hab⟩
      have := hab.symm
      rcases List.append_eq_nil.mp this with ⟨h1, h2⟩
      rcases List.append_eq_nil.mp h1 with ⟨rfl, rfl⟩
      exact Or.inl ⟨b, by simpa using hab⟩
  | cons c cs ih =>
    simp only [containsL, Bool.or_eq_true, isPrefixOf_iff_ex, ih]
    constructor
    · rintro (⟨t, ht⟩ | ⟨a, b, hab⟩)
      · exact ⟨[], t, by simpa using ht⟩
      · exact ⟨c :: a, b, by simp [hab]⟩
    · rintro ⟨a, b, hab⟩
      cases a with
      | nil => exact Or.inl ⟨b, by simpa using hab⟩
      | cons x xs =>
        right
        simp only [List.cons_append, List.cons.injEq] at hab
        exact ⟨xs, b, hab.2⟩

/-- Every character of an occurring pattern occurs in the text. -/
theorem mem_of_containsL {s pat : Str} (h : containsL s pat = true) :
    ∀ c ∈ pat, c ∈ s := by
  rcases (containsL_iff_ex s pat).mp h with ⟨a, b, rfl⟩
  intro c hc
  simp [hc]

/-- Absence of a pattern character refutes an occurrence. -/
theorem containsL_eq_false_of_not_mem {s pat : Str} {c : Char}
    (hc : c ∈ pat) (hs : c ∉ s) : containsL s pat = false := by
  by_contra h
  exact hs (mem_of_containsL (by simpa using h) c hc)

/-- Python's `str.startswith`. -/
def beginsWith (p s : Str) : Bool := p.isPrefixOf s

/-- Strip trailing ASCII whitespace. -/
def stripEnd (s : Str) : Str := (s.reverse.dropWhile pyIsSpace).reverse

/-- Python's `str.strip()` (ASCII fragment). -/
def pyStrip (s : Str) : Str := stripEnd (s.dropWhile pyIsSpace)

/-- Python's `str.split("\n")`. -/
def splitNL : Str → List Str
  | [] => [[]]
  | c :: cs =>
    if c = '\n' then [] :: splitNL cs
    else
      match splitNL cs with
      | [] => [[c]]
      | l :: ls => (c :: l) :: ls

/-- Python's `"\n".join(...)`. -/
def joinNL : List Str → Str
  | [] => []
  | [l] => l
  | l :: ls => l ++ '\n' :: joinNL ls

theorem splitNL_ne_nil (s : Str) : splitNL s ≠ [] := by
  induction s with
  | nil => simp [splitNL]
  | cons c cs ih =>
    simp only [splitNL]
    split
    · simp
    · cases h : splitNL cs with
      | nil => simp
      | cons l ls => simp

/-- Splitting a newline-free line alone recovers it. -/
theorem splitNL_no_nl {l : Str} (hl : '\n' ∉ l) : splitNL l = [l] := by
  induction l with
  | nil => simp [splitNL]
  | cons c cs ih =>
    have hc : c ≠ '\n' := fun hh => hl (by simp [hh])
    have hcs : '\n' ∉ cs := fun hh => hl (by simp [hh])
    simp only [splitNL, if_neg hc, ih hcs]

/-- The first newline splits off the leading newline-free chunk. -/
theorem splitNL_append_nl (l rest : Str) (hl : '\n' ∉ l) :
    splitNL (l ++ '\n' :: rest) = l :: splitNL rest := by
  induction l with
  | nil => simp [splitNL]
  | cons c cs ih =>
    have hc : c ≠ '\n' := fun hh => hl (by simp [hh])
    have hcs : '\n' ∉ cs := fun hh => hl (by simp [hh])
    simp only [List.cons_append, splitNL, if_neg hc, List.append_eq, ih hcs]

/-- Joining newline-free lines and splitting again recovers the lines. -/
theorem splitNL_joinNL (ls : List Str) (hne : ls ≠ [])
    (h : ∀ l ∈ ls, '\n' ∉ l) : splitNL (joinNL ls) = ls := by
  induction ls with
  | nil => exact absurd rfl hne
  | cons l ls ih =>
    cases ls with
    | nil => exact splitNL_no_nl (h l (by simp))
    | cons m ms =>
      have step : joinNL (l :: m :: ms) = l ++ '\n' :: joinNL (m :: ms) := rfl
      rw [step, splitNL_append_nl _ _ (h l (by simp)),
        ih (by simp) (fun x hx => h x (by simp [hx]))]

/-- Python's `str.upper()` (ASCII fragment), applied characterwise. -/
def pyUpperS (s : Str) : Str := s.map Char.toUpper

/-- Python's `str.lower()` (ASCII fragment), applied characterwise. -/
def pyLowerS (s : Str) : Str := s.map Char.toLower

theorem toNat_ofNat_lt (n : Nat) (h : n < 55296) : (Char.ofNat n).toNat = n := by
  unfold Char.ofNat
  rw [dif_pos (Or.inl h)]
  rfl

theorem char_eq_of_toNat_eq {a b : Char} (h : a.toNat = b.toNat) : a = b :=
  Char.ext (UInt32.ext (by simpa [Char.toNat, UInt32.toNat] using h))

/-- `Char.toUpper` computed on `toNat` (ASCII case map). -/
theorem toNat_toUpper (c : Char) :
    c.toUpper.toNat = if 97 ≤ c.toNat ∧ c.toNat ≤ 122 then c.toNat - 32 else c.toNat := by
  unfold Char.toUpper
  simp only []
  split <;> rename_i hr
  · rw [toNat_ofNat_lt _ (by omega)]
  · rfl

/-- `Char.toLower` computed on `toNat` (ASCII case map). -/
theorem toNat_toLower (c : Char) :
    c.toLower.toNat = if 65 ≤ c.toNat ∧ c.toNat ≤ 90 then c.toNat + 32 else c.toNat := by
  unfold Char.toLower
  simp only []
  split <;> rename_i hr
  · rw [toNat_ofNat_lt _ (by omega)]
  · rfl

/-- Characters agreeing after `toLower` agree after `toUpper` (ASCII case map). -/
theorem toUpper_eq_of_toLower_eq {a b : Char} (h : a.toLower = b.toLower) :
    a.toUpper = b.toUpper := by
  apply char_eq_of_toNat_eq
  have hn := congrArg Char.toNat h
  rw [toNat_toLower, toNat_toLower] at hn
  rw [toNat_toUpper, toNat_toUpper]
  split at hn <;> split at hn <;> split <;> split <;> omega

/-! ### Exact model of the binary64 products `n * 0.75` and `n * 0.25` -/

/-- `2^53`, the first integer not exactly representable in binary64. -/
def c53 : Nat := 9007199254740992

/-- `2^52`. -/
def c52 : Nat := 4503599627370496

/-- The power of two `2^s` scaling `m` into `[2^52, 2^53)`; the first
argument is fuel (`m` itself always suffices). -/
def scaleF : Nat → Nat → Nat
  | 0, _ => 1
  | f + 1, m => if m < c53 then 1 else 2 * scaleF f (m / 2)

/-- Round a natural number to 53 significant bits, ties to even:
the value of `float(m)` in binary64. -/
def rnd53 (m : Nat) : Nat :=
  if m < c53 then m
  else
    let s := scaleF m m
    let q := m / s
    let r := m % s
    let h := s / 2
    if h < r ∨ (r = h ∧ q % 2 = 1) then (q + 1) * s else q * s

/-- Exact value of Python's `int(n * 0.75)`: the float product rounds
`3 * float(n)` to 53 bits and divides by 4 exactly; `int` floors. -/
def pyInt075 (n : Nat) : Nat := rnd53 (3 * rnd53 n) / 4

/-- Exact value of Python's `int(n * 0.25)`: scaling by `0.25` is exact
on the significand, so only `float(n)` rounds; `int` floors. -/
def pyInt025 (n : Nat) : Nat := rnd53 n / 4

theorem scaleF_of_lt {m : Nat} (fuel : Nat) (h : m < c53) : scaleF fuel m = 1 := by
  cases fuel <;> simp [scaleF, h]

theorem scaleF_pos (fuel m : Nat) : 0 < scaleF fuel m := by
  induction fuel generalizing m with
  | zero => simp [scaleF]
  | succ f ih =>
    simp only [scaleF]
    split
    · exact Nat.one_pos
    · exact Nat.mul_pos (by norm_num) (ih _)

theorem scaleF_norm : ∀ fuel m, m ≤ fuel → c53 ≤ m → c52 * scaleF fuel m ≤ m := by
  intro fuel
  induction fuel with
  | zero =>
    intro m hm hc
    have : (9007199254740992 : Nat) ≤ 0 := by
      calc (9007199254740992 : Nat) = c53 := rfl
        _ ≤ m := hc
        _ ≤ 0 := hm
    omega
  | succ f ih =>
    intro m hm hc
    have hnl : ¬ m < c53 := not_lt.mpr hc
    simp only [scaleF, if_neg hnl]
    by_cases h2 : m / 2 < c53
    · rw [scaleF_of_lt f h2]
      calc c52 * (2 * 1) = c53 := by norm_num [c52, c53]
        _ ≤ m := hc
    · have hm2 : m / 2 ≤ f := by
        have h1 : 2 ≤ m := le_trans (by norm_num [c53]) hc
        have := Nat.div_le_self m 2
        have hlt : m / 2 < m := Nat.div_lt_self (by omega) (by norm_num)
        omega
      have := ih (m / 2) hm2 (not_lt.mp h2)
      calc c52 * (2 * scaleF f (m / 2)) = 2 * (c52 * scaleF f (m / 2)) := by ring
        _ ≤ 2 * (m / 2) := Nat.mul_le_mul_left 2 this
        _ ≤ m := by omega

/-- Halving step of `scaleF` at a non-representable value. -/
theorem scaleF_succ_eq {m : Nat} (h : c53 ≤ m) :
    scaleF m m = 2 * scaleF (m - 1) (m / 2) := by
  have h1 : 1 ≤ m := le_trans (by norm_num [c53]) h
  obtain ⟨k, rfl⟩ : ∃ k, m = k + 1 := ⟨m - 1, by omega⟩
  simp only [scaleF, if_neg (not_lt.mpr h), Nat.add_sub_cancel]

/-- Rounding to 53 bits perturbs `m` by at most a factor `1 + 2^-53`. -/
theorem rnd53_mul_le (m : Nat) : rnd53 m * c53 ≤ m * (c53 + 1) := by
  unfold rnd53
  split
  · exact Nat.mul_le_mul_left m (by omega)
  · rename_i hnl
    have hc : c53 ≤ m := not_lt.mp hnl
    simp only []
    rw [scaleF_succ_eq hc]
    set s' := scaleF (m - 1) (m / 2) with hs'
    have hs'pos : 0 < s' := scaleF_pos _ _
    have hnorm : c52 * (2 * s') ≤ m := by
      have := scaleF_norm m m le_rfl hc
      rwa [scaleF_succ_eq hc] at this
    have hhalf : 2 * s' / 2 = s' := by omega
    have hdm := Nat.div_add_mod m (2 * s')
    set q := m / (2 * s') with hq
    set r := m % (2 * s') with hr
    have hrlt : r < 2 * s' := Nat.mod_lt _ (by omega)
    split
    · rename_i hcond
      have hrge : s' ≤ r := by
        rcases hcond with h1 | h2
        · rw [hhalf] at h1; omega
        · rw [hhalf] at h2; omega
      -- (q+1) * (2s') = q*(2s') + 2s' = (m - r) + 2s' ≤ m + s'
      have hup : (q + 1) * (2 * s') ≤ m + s' := by
        have : q * (2 * s') + r = m := by rw [Nat.mul_comm]; exact hdm
        nlinarith
      calc (q + 1) * (2 * s') * c53 ≤ (m + s') * c53 := Nat.mul_le_mul_right c53 hup
        _ = m * c53 + s' * c53 := by ring
        _ = m * c53 + c52 * (2 * s') := by rw [show s' * c53 = c52 * (2 * s') by norm_num [c52, c53]; ring]
        _ ≤ m * c53 + m := by omega
        _ = m * (c53 + 1) := by ring
    · have hdn : q * (2 * s') ≤ m := by
        have : q * (2 * s') + r = m := by rw [Nat.mul_comm]; exact hdm
        omega
      calc q * (2 * s') * c53 ≤ m * c53 := Nat.mul_le_mul_right c53 hdn
        _ ≤ m * (c53 + 1) := Nat.mul_le_mul_left m (by omega)

theorem rnd53_of_lt {m : Nat} (h : m < c53) : rnd53 m = m := by
  unfold rnd53; rw [if_pos h]

theorem rnd53_le_two_mul (m : Nat) : rnd53 m ≤ 2 * m := by
  have h := rnd53_mul_le m
  have : rnd53 m * c53 ≤ (2 * m) * c53 := by
    calc rnd53 m * c53 ≤ m * (c53 + 1) := h
      _ ≤ m * (2 * c53) := Nat.mul_le_mul_left m (by norm_num [c53])
      _ = (2 * m) * c53 := by ring
  exact Nat.le_of_mul_le_mul_right this (by norm_num [c53])

theorem pyInt025_le (n : Nat) : pyInt025 n ≤ n := by
  unfold pyInt025
  calc rnd53 n / 4 ≤ 2 * n / 4 := Nat.div_le_div_right (rnd53_le_two_mul n)
    _ ≤ n := by omega

theorem pyInt075_le (n : Nat) : pyInt075 n ≤ n := by
  unfold pyInt075
  rcases Nat.eq_zero_or_pos n with rfl | hpos
  · have h0 : rnd53 0 = 0 := rnd53_of_lt (by norm_num [c53])
    simp [h0]
  · have hA := rnd53_mul_le n
    set A := rnd53 n with hA'
    have hB := rnd53_mul_le (3 * A)
    set B := rnd53 (3 * A) with hB'
    have key : B * (c53 * c53) ≤ 3 * n * ((c53 + 1) * (c53 + 1)) := by
      calc B * (c53 * c53) = (B * c53) * c53 := by ring
        _ ≤ (3 * A * (c53 + 1)) * c53 := Nat.mul_le_mul_right c53 hB
        _ = 3 * (c53 + 1) * (A * c53) := by ring
        _ ≤ 3 * (c53 + 1) * (n * (c53 + 1)) := Nat.mul_le_mul_left _ hA
        _ = 3 * n * ((c53 + 1) * (c53 + 1)) := by ring
    have hfac : 3 * ((c53 + 1) * (c53 + 1)) ≤ 4 * (c53 * c53) := by norm_num [c53]
    have hBn : B ≤ 4 * n := by
      have : B * (c53 * c53) ≤ (4 * n) * (c53 * c53) := by
        calc B * (c53 * c53) ≤ 3 * n * ((c53 + 1) * (c53 + 1)) := key
          _ = n * (3 * ((c53 + 1) * (c53 + 1))) := by ring
          _ ≤ n * (4 * (c53 * c53)) := Nat.mul_le_mul_left n hfac
          _ = (4 * n) * (c53 * c53) := by ring
      exact Nat.le_of_mul_le_mul_right this (by norm_num [c53])
    calc B / 4 ≤ 4 * n / 4 := Nat.div_le_div_right hBn
      _ = n := by omega

/-- Below `2^53 / 3` both float products are exact and the base estimate
is plain floor arithmetic. -/
theorem pyInt075_exact {n : Nat} (h : 3 * n < c53) : pyInt075 n = 3 * n / 4 := by
  unfold pyInt075
  rw [rnd53_of_lt (show n < c53 by omega), rnd53_of_lt h]

theorem pyInt025_exact {n : Nat} (h : n < c53) : pyInt025 n = n / 4 := by
  unfold pyInt025
  rw [rnd53_of_lt h]

/-! ### Data model (`ai_coverage.py` dataclasses) -/

/-- One coverage entry; models the three identical dataclasses
`MethodEntry`, `StructEntry`, `TraitEntry`. -/
structure CEntry where
  name : Str
  coverage : Str
  start_line : Option Nat := none
  end_line : Option Nat := none
deriving DecidableEq, Repr

/-- A `LibraryEntry`: library name and free-text reason. -/
structure LibEntry where
  name : Str
  reason : Str
deriving DecidableEq, Repr

/-- Python truthiness of an `Optional[int]` that is `None` or a parsed
nonnegative numeral. -/
def truthy : Option Nat → Bool
  | none => false
  | some n => n != 0

/-- Loop body of `estimate_ai_lines`: accumulates `partial_lines` (an
integer, possibly negative) and `whole_items`. -/
def entryStep (pr : Int × Nat) (item : CEntry) : Int × Nat :=
  if item.coverage = S "PARTIAL" ∧ truthy item.start_line ∧ truthy item.end_line then
    (pr.1 + ((item.end_line.getD 0 : Int) - (item.start_line.getD 0 : Int) + 1), pr.2)
  else if item.coverage = S "WHOLE" then (pr.1, pr.2 + 1)
  else pr

/-- `estimate_ai_lines` from `ai_coverage.py` (lines 314-339). -/
def estimate_ai_lines (total_lines : Nat) (type_coverage : Str)
    (methods structs traits : List CEntry) : Int :=
  if type_coverage = S "WHOLE" then (total_lines : Int)
  else if type_coverage = S "ABOVE_50" ∨ type_coverage = S "DOWN_50" then
    let base : Nat :=
      if type_coverage = S "ABOVE_50" then pyInt075 total_lines else pyInt025 total_lines
    let acc := (methods ++ structs ++ traits).foldl entryStep (0, 0)
    if 0 < acc.1 then min (acc.1 + ((acc.2 : Int) * 20)) (total_lines : Int) else (base : Int)
  else 0

/-- Spec-side contribution of one entry to the partial-line sum:
`end - start + 1` for a Partial entry whose bounds are present and
nonzero (Python truthiness), else zero. -/
def entryValSpec (e : CEntry) : Int :=
  match e.start_line, e.end_line with
  | some s, some t =>
    if e.coverage = S "PARTIAL" ∧ s ≠ 0 ∧ t ≠ 0 then (t : Int) - (s : Int) + 1 else 0
  | _, _ => 0

/-- Spec-side partial-line sum over an entry list. -/
def partialSumSpec (es : List CEntry) : Int := (es.map entryValSpec).sum

/-- Spec-side count of Whole-coverage entries. -/
def wholeCountSpec (es : List CEntry) : Nat := es.countP (fun e => e.coverage == S "WHOLE")

theorem entryStep_eq (pr : Int × Nat) (e : CEntry) :
    entryStep pr e = (pr.1 + entryValSpec e, pr.2 + (if e.coverage == S "WHOLE" then 1 else 0)) := by
  have hne : S "PARTIAL" ≠ S "WHOLE" := by decide
  rcases e with ⟨nm, cov, s?, t?⟩
  rcases s? with _ | s <;> rcases t? with _ | t <;>
    simp only [entryStep, entryValSpec, truthy] <;> split_ifs with h1 h2 <;>
    simp_all [beq_iff_eq]

theorem foldl_entryStep (es : List CEntry) (pr : Int × Nat) :
    es.foldl entryStep pr = (pr.1 + partialSumSpec es, pr.2 + wholeCountSpec es) := by
  induction es generalizing pr with
  | nil => simp [partialSumSpec, wholeCountSpec]
  | cons e es ih =>
    simp only [List.foldl_cons, ih, entryStep_eq, partialSumSpec, wholeCountSpec,
      List.map_cons, List.sum_cons, List.countP_cons, Prod.mk.injEq]
    refine ⟨by ring, by split_ifs <;> omega⟩

theorem partialSumSpec_eq_zero {es : List CEntry}
    (h : ∀ e ∈ es, e.coverage ≠ S "PARTIAL") : partialSumSpec es = 0 := by
  induction es with
  | nil => simp [partialSumSpec]
  | cons e es ih =>
    obtain ⟨nm, cov, s?, t?⟩ := e
    have he : cov ≠ S "PARTIAL" := by simpa using h _ (List.mem_cons_self _ _)
    have h1 : entryValSpec ⟨nm, cov, s?, t?⟩ = 0 := by
      rcases s? with _ | s <;> rcases t? with _ | t <;> simp [entryValSpec, he]
    simp only [partialSumSpec, List.map_cons, List.sum_cons, h1, zero_add]
    exact ih (fun x hx => h x (by simp [hx]))

/-! ### Claims about the estimator (C1, C4, C8) -/

/-- C1: For every estimator input — any total non-blank line count, any
classification string (including unknown/absent ones), and any lists of
method/struct/trait entries, including Partial entries whose start
exceeds their end — the estimated AI line count satisfies
`0 ≤ estimatedAiLines ≤ totalLines`. -/
theorem C1_estimate_bounds (total : Nat) (tc : Str) (ms ss ts : List CEntry) :
    0 ≤ estimate_ai_lines total tc ms ss ts ∧
      estimate_ai_lines total tc ms ss ts ≤ (total : Int) := by
  unfold estimate_ai_lines
  by_cases h1 : tc = S "WHOLE"
  · rw [if_pos h1]
    exact ⟨Int.ofNat_nonneg total, le_rfl⟩
  rw [if_neg h1]
  by_cases h2 : tc = S "ABOVE_50" ∨ tc = S "DOWN_50"
  · rw [if_pos h2]
    simp only [foldl_entryStep, zero_add]
    by_cases hpos : 0 < partialSumSpec (ms ++ ss ++ ts)
    · rw [if_pos hpos]
      refine ⟨le_min ?_ (Int.ofNat_nonneg total), min_le_right _ _⟩
      have hw : (0 : Int) ≤ (wholeCountSpec (ms ++ ss ++ ts) : Int) * 20 := by positivity
      omega
    · rw [if_neg hpos]
      refine ⟨Int.ofNat_nonneg _, ?_⟩
      split_ifs with h75
      · exact_mod_cast pyInt075_le total
      · exact_mod_cast pyInt025_le total
  · rw [if_neg h2]
    exact ⟨le_rfl, Int.ofNat_nonneg total⟩

/-- C4 counterexample: the claim predicts that a positive partial sum
replaces the base estimate for every declared classification and counts
every Partial entry with present bounds.  For classification `WHOLE`
with one Partial entry `1~5` the code returns `total_lines = 100`, not
the predicted `min(5 + 0*20, 100) = 5`; and for `ABOVE_50` a Partial
entry `0~5` (present bounds, sum `6 > 0`) is ignored by Python
truthiness, returning the base `75`, not the predicted `6`. -/
theorem C4_cex :
    estimate_ai_lines 100 (S "WHOLE")
        [⟨S "f", S "PARTIAL", some 1, some 5⟩] [] [] = 100 ∧
      (100 : Int) ≠ min ((5 : Int) + 0 * 20) 100 ∧
      estimate_ai_lines 100 (S "ABOVE_50")
        [⟨S "g", S "PARTIAL", some 0, some 5⟩] [] [] = 75 ∧
      (75 : Int) ≠ min ((6 : Int) + 0 * 20) 100 := by
  refine ⟨by decide, by decide, ?_, by decide⟩
  decide

/-- The estimation policy, characterised against the spec-side sums. -/
theorem estimate_policy (total : Nat) (tc : Str) (ms ss ts : List CEntry) :
    (tc = S "WHOLE" → estimate_ai_lines total tc ms ss ts = (total : Int)) ∧
      ((tc = S "ABOVE_50" ∨ tc = S "DOWN_50") →
        (0 < partialSumSpec (ms ++ ss ++ ts) →
          estimate_ai_lines total tc ms ss ts =
            min (partialSumSpec (ms ++ ss ++ ts) +
              (wholeCountSpec (ms ++ ss ++ ts) : Int) * 20) (total : Int)) ∧
        (partialSumSpec (ms ++ ss ++ ts) ≤ 0 →
          estimate_ai_lines total tc ms ss ts =
            if tc = S "ABOVE_50" then (pyInt075 total : Int) else (pyInt025 total : Int))) := by
  have hne1 : S "WHOLE" ≠ S "ABOVE_50" := by decide
  have hne2 : S "WHOLE" ≠ S "DOWN_50" := by decide
  constructor
  · rintro rfl
    unfold estimate_ai_lines
    rw [if_pos rfl]
  · intro htc
    have hW : tc ≠ S "WHOLE" := by
      rcases htc with rfl | rfl <;> decide
    constructor
    · intro hpos
      unfold estimate_ai_lines
      rw [if_neg hW, if_pos htc]
      simp only [foldl_entryStep, zero_add]
      rw [if_pos hpos]
    · intro hnonpos
      unfold estimate_ai_lines
      rw [if_neg hW, if_pos htc]
      simp only [foldl_entryStep, zero_add]
      rw [if_neg (by omega)]
      split_ifs <;> rfl

/-- C4 (amended): for the classifications `ABOVE_50` and `DOWN_50` only —
a declared `WHOLE` classification returns `totalLines` unconditionally,
ignoring all entries — and counting Partial entries whose bounds are
present and nonzero (Python truthiness), a positive partial sum yields
`min(partialSum + wholeEntryCount * 20, totalLines)`, and otherwise the
classification's base estimate stands. -/
theorem C4_amended (total : Nat) (tc : Str) (ms ss ts : List CEntry) :
    (tc = S "WHOLE" → estimate_ai_lines total tc ms ss ts = (total : Int)) ∧
      ((tc = S "ABOVE_50" ∨ tc = S "DOWN_50") →
        (0 < partialSumSpec (ms ++ ss ++ ts) →
          estimate_ai_lines total tc ms ss ts =
            min (partialSumSpec (ms ++ ss ++ ts) +
              (wholeCountSpec (ms ++ ss ++ ts) : Int) * 20) (total : Int)) ∧
        (partialSumSpec (ms ++ ss ++ ts) ≤ 0 →
          estimate_ai_lines total tc ms ss ts =
            if tc = S "ABOVE_50" then (pyInt075 total : Int) else (pyInt025 total : Int))) :=
  estimate_policy total tc ms ss ts

/-- C4 witness: at a concrete `DOWN_50` input with one Partial entry
`2~7` the amended refinement formula gives `min(6 + 20, 50) = 26`. -/
theorem C4_witness :
    estimate_ai_lines 50 (S "DOWN_50")
        [⟨S "f", S "PARTIAL", some 2, some 7⟩, ⟨S "g", S "WHOLE", none, none⟩] [] [] = 26 := by
  have h := (C4_amended 50 (S "DOWN_50")
    [⟨S "f", S "PARTIAL", some 2, some 7⟩, ⟨S "g", S "WHOLE", none, none⟩] [] []).2
    (Or.inr rfl)
  rw [h.1 (by decide)]
  decide

/-- C8 counterexample: the claim asserts the `ABOVE_50` base estimate is
exactly `75%` of the total rounded down for every file.  The code
computes `int(total_lines * 0.75)` in binary64; at
`totalLines = 3002399751580333` the float product rounds up (ties to
even), giving `2251799813685250` instead of
`3 * 3002399751580333 / 4 = 2251799813685249`. -/
theorem C8_cex :
    estimate_ai_lines 3002399751580333 (S "ABOVE_50") [] [] [] = 2251799813685250 ∧
      (3 * 3002399751580333 / 4 : Nat) = 2251799813685249 ∧
      (2251799813685250 : Int) ≠ 2251799813685249 := by
  refine ⟨?_, by norm_num, by decide⟩
  decide

/-- C8 (amended): for every file with no Partial entries and
`totalLines ≤ 3002399751580330` (so that both float products are exact),
the base estimate is exact integer arithmetic on the classification:
`WHOLE` yields the full total, `ABOVE_50` yields `3 * total / 4` and
`DOWN_50` yields `total / 4`, both rounded down. -/
theorem C8_amended (total : Nat) (ms ss ts : List CEntry)
    (hb : total ≤ 3002399751580330)
    (hnp : ∀ e ∈ ms ++ ss ++ ts, e.coverage ≠ S "PARTIAL") :
    estimate_ai_lines total (S "WHOLE") ms ss ts = (total : Int) ∧
      estimate_ai_lines total (S "ABOVE_50") ms ss ts = ((3 * total / 4 : Nat) : Int) ∧
      estimate_ai_lines total (S "DOWN_50") ms ss ts = ((total / 4 : Nat) : Int) := by
  have hzero : partialSumSpec (ms ++ ss ++ ts) = 0 := partialSumSpec_eq_zero hnp
  have h75 := (estimate_policy total (S "ABOVE_50") ms ss ts).2 (Or.inl rfl) |>.2 (by omega)
  have h25 := (estimate_policy total (S "DOWN_50") ms ss ts).2 (Or.inr rfl) |>.2 (by omega)
  refine ⟨(estimate_policy total (S "WHOLE") ms ss ts).1 rfl, ?_, ?_⟩
  · rw [h75, if_pos rfl, pyInt075_exact (by simp only [c53]; omega)]
  · rw [h25, if_neg (by decide), pyInt025_exact (by simp only [c53]; omega)]

/-- C8 witness: the spec's own examples — classification `WHOLE` with
100 lines estimates 100, and `ABOVE_50` with 200 lines estimates 150. -/
theorem C8_witness :
    estimate_ai_lines 100 (S "WHOLE") [] [] [] = 100 ∧
      estimate_ai_lines 200 (S "ABOVE_50") [] [] [] = 150 := by
  have h1 := C8_amended 100 [] [] [] (by norm_num) (by simp)
  have h2 := C8_amended 200 [] [] [] (by norm_num) (by simp)
  exact ⟨by simpa using h1.1, by simpa using h2.2.1⟩

/-! ### Regex primitives: case-insensitive literals, `\s`, `\d`, `\w`, search -/

/-- Match a literal pattern case-insensitively at the head of the input,
returning the rest.  Models a regex literal under `re.IGNORECASE`. -/
def matchLitCI : Str → Str → Option Str
  | [], s => some s
  | _ :: _, [] => none
  | p :: ps, c :: cs => if c.toLower = p.toLower then matchLitCI ps cs else none

/-- Regex `\s*` (greedy; every use site is followed by a non-space token). -/
def spaces0 (s : Str) : Str := s.dropWhile pyIsSpace

/-- Regex `\s+` (greedy). -/
def spaces1 : Str → Option Str
  | [] => none
  | c :: cs => if pyIsSpace c then some (cs.dropWhile pyIsSpace) else none

/-- Leftmost search: try the matcher at every position, left to right.
Models `re.search`. -/
def searchO {α : Type} (m : Str → Option α) : Str → Option α
  | [] => m []
  | c :: cs =>
    match m (c :: cs) with
    | some r => some r
    | none => searchO m cs

theorem matchLitCI_self (p r : Str) : matchLitCI p (p ++ r) = some r := by
  induction p with
  | nil => rfl
  | cons c cs ih => simp [matchLitCI, ih]

/-- A successful literal match consumes a tail and ci-matches every
pattern character somewhere in the input. -/
theorem matchLitCI_chars {p u r : Str} (h : matchLitCI p u = some r) :
    ∀ c ∈ p, ∃ d ∈ u, d.toLower = c.toLower := by
  induction p generalizing u with
  | nil => simp
  | cons pc pcs ih =>
    cases u with
    | nil => simp [matchLitCI] at h
    | cons d ds =>
      simp only [matchLitCI] at h
      split_ifs at h with hc
      intro c hcmem
      rcases List.mem_cons.mp hcmem with rfl | hmem
      · exact ⟨d, by simp, hc⟩
      · rcases ih h c hmem with ⟨e, he, heq⟩
        exact ⟨e, by simp [he], heq⟩

/-- A search hit happens at some suffix of the input. -/
theorem searchO_some {α : Type} {m : Str → Option α} {s : Str} {r : α}
    (h : searchO m s = some r) : ∃ t, t <:+ s ∧ m t = some r := by
  induction s with
  | nil => exact ⟨[], by simp, h⟩
  | cons c cs ih =>
    simp only [searchO] at h
    rcases hm : m (c :: cs) with _ | v
    · rw [hm] at h
      rcases ih h with ⟨t, ht, hmt⟩
      exact ⟨t, ht.trans (List.suffix_cons c cs), hmt⟩
    · rw [hm] at h
      cases h
      exact ⟨c :: cs, List.suffix_rfl, hm⟩

/-- A search over a text where the matcher fails at every suffix fails. -/
theorem searchO_none {α : Type} {m : Str → Option α} {s : Str}
    (h : ∀ t, t <:+ s → m t = none) : searchO m s = none := by
  induction s with
  | nil => simpa using h [] (by simp)
  | cons c cs ih =>
    simp only [searchO]
    rw [h (c :: cs) List.suffix_rfl]
    exact ih (fun t ht => h t (ht.trans (List.suffix_cons c cs)))

/-- A match at position 0 makes the search succeed with that result. -/
theorem searchO_head {α : Type} {m : Str → Option α} {s : Str} {r : α}
    (h : m s = some r) : searchO m s = some r := by
  cases s <;> simp [searchO, h]

/-! ### The Write-gating hook (`check_aigcap.py`) -/

/-- The banner literal `BANNER` shared by both programs. -/
def bannerC : Str := S "THIS FILE INCLUDES AI GENERATED CODE"

/-- `CODE_EXTENSIONS` from `check_aigcap.py`. -/
def CODE_EXTENSIONS : List Str :=
  [S ".rs", S ".c", S ".h", S ".cpp", S ".hpp", S ".java",
   S ".js", S ".jsx", S ".ts", S ".tsx",
   S ".go", S ".swift", S ".kt", S ".scala", S ".cs",
   S ".py", S ".rb", S ".sh", S ".bash",
   S ".css", S ".scss",
   S ".sql", S ".lua", S ".hs",
   S ".html", S ".xml", S ".svg", S ".vue"]

/-- `SKIP_PATTERNS` from `check_aigcap.py`. -/
def SKIP_PATTERNS : List Str :=
  [S "node_modules", S ".git", S "__pycache__",
   S "target/debug", S "target/release", S "dist/", S "build/",
   S "package.json", S "package-lock.json", S "Cargo.lock", S "yarn.lock",
   S "Cargo.toml", S "pyproject.toml", S "go.mod", S "go.sum",
   S "tsconfig.json", S ".eslintrc", S ".prettierrc",
   S "CLAUDE.md", S "AIGCAP_PROTOCOL.md", S "README.md", S "CHANGELOG.md", S "LICENSE",
   S ".env", S ".gitignore", S ".dockerignore",
   S "Makefile", S "Dockerfile", S "docker-compose",
   S "__init__.py"]

/-- `os.path.basename` (POSIX): everything after the last slash. -/
def basenameL (fp : Str) : Str := (fp.reverse.takeWhile (fun c => c ≠ '/')).reverse

/-- The extension part of `os.path.splitext` (POSIX): from the last dot
of the basename, provided some earlier basename character is not a dot. -/
def splitextExt (fp : Str) : Str :=
  let bn := basenameL fp
  let pre := bn.reverse.takeWhile (fun c => c ≠ '.')
  if pre.length = bn.length then []
  else if (bn.take (bn.length - pre.length - 1)).any (fun c => c ≠ '.') then '.' :: pre.reverse
  else []

/-- `should_check` from `check_aigcap.py` (lines 48-58). -/
def should_check (file_path : Str) : Bool :=
  if file_path = [] then false
  else if ¬ (CODE_EXTENSIONS.any (fun e => e == pyLowerS (splitextExt file_path))) then false
  else if SKIP_PATTERNS.any
      (fun p => containsL file_path p || p == basenameL file_path) then false
  else true

/-- Matcher for `REVIEWED-BY-HUMAN\s*:\s*<word>` under `re.IGNORECASE`. -/
def matchReviewed (word : Str) (u : Str) : Option Str :=
  (matchLitCI (S "REVIEWED-BY-HUMAN") u).bind fun r =>
    (matchLitCI (S ":") (spaces0 r)).bind fun r2 =>
      matchLitCI word (spaces0 r2)

/-- `RE_YES.search(content)` as a Boolean. -/
def reviewedYes (content : Str) : Bool := (searchO (matchReviewed (S "YES")) content).isSome

/-- `RE_NO.search(content)` as a Boolean. -/
def reviewedNo (content : Str) : Bool := (searchO (matchReviewed (S "NO")) content).isSome

/-- The exit status of `main` in `check_aigcap.py` on a `Write` tool call
(lines 61-108): gate on `should_check`, then banner presence, then the
two `REVIEWED-BY-HUMAN` checks. -/
def hookWriteExit (file_path content : Str) : Nat :=
  if ¬ should_check file_path then 0
  else if ¬ containsL content bannerC then 2
  else if reviewedYes content then 2
  else if ¬ reviewedNo content then 2
  else 0

/-- C10: for every Write invocation whose path passes `should_check`
(recognised code extension, no skip pattern), the hook blocks with exit
status 2 exactly when the content has no occurrence of the banner
phrase, or matches `REVIEWED-BY-HUMAN: YES` (case-insensitive, flexible
spacing), or fails to match `REVIEWED-BY-HUMAN: NO`; in every other
case — empty paths, unrecognised extensions, skip-listed files — it
exits 0 and allows the write. -/
theorem C10_hook_gate (fp content : Str) :
    (should_check fp = true →
      (hookWriteExit fp content = 2 ↔
        ((¬ ∃ a b, content = a ++ bannerC ++ b) ∨
          reviewedYes content = true ∨ reviewedNo content = false))) ∧
    (should_check fp = false → hookWriteExit fp content = 0) := by
  constructor
  · intro hsc
    unfold hookWriteExit
    rw [if_neg (by simp [hsc])]
    rw [show (¬ ∃ a b, content = a ++ bannerC ++ b) ↔ containsL content bannerC = false by
      rw [← containsL_iff_ex]; simp]
    by_cases hb : containsL content bannerC
    · rw [if_neg (by simp [hb])]
      by_cases hy : reviewedYes content
      · simp [hy]
      · rw [if_neg hy]
        by_cases hn : reviewedNo content
        · simp [hb, hy, hn]
        · simp [hb, hy, hn]
    · simp [hb]
  · intro hsc
    unfold hookWriteExit
    rw [if_pos (by simp [hsc])]

/-- C10 witness: `src/main.py` passes `should_check`, and a write whose
content lacks the banner is blocked with exit status 2. -/
theorem C10_witness :
    should_check (S "src/main.py") = true ∧
      (hookWriteExit (S "src/main.py") (S "x = 1") = 2 ↔
        ((¬ ∃ a b, S "x = 1" = a ++ bannerC ++ b) ∨
          reviewedYes (S "x = 1") = true ∨ reviewedNo (S "x = 1") = false)) :=
  ⟨by decide, (C10_hook_gate (S "src/main.py") (S "x = 1")).1 (by decide)⟩

/-! ### Comment dialects and the header extractor -/

/-- The four comment families of `LANG_MAP`. -/
inductive Family
  | block
  | hash
  | dash
  | html
deriving DecidableEq, Repr

/-- Regex `\s?` after a removed decoration run: drop at most one space. -/
def dropOpt1Sp : Str → Str
  | [] => []
  | c :: cs => if pyIsSpace c then cs else c :: cs

/-- `re.sub(r"^/\*+\s?", "", s)`. -/
def subBlockOpen : Str → Str
  | '/' :: '*' :: r => dropOpt1Sp (r.dropWhile (fun c => c = '*'))
  | s => s

/-- `re.sub(r"\*+/$", "", s)`. -/
def subBlockClose (s : Str) : Str :=
  match s.reverse with
  | '/' :: '*' :: r => (r.dropWhile (fun c => c = '*')).reverse
  | _ => s

/-- `re.sub(r"^\*+\s?", "", s)`. -/
def subBlockStar : Str → Str
  | '*' :: r => dropOpt1Sp (r.dropWhile (fun c => c = '*'))
  | s => s

/-- `re.sub(r"^#+\s?", "", s)`. -/
def subHash : Str → Str
  | '#' :: r => dropOpt1Sp (r.dropWhile (fun c => c = '#'))
  | s => s

/-- `re.sub(r"^--+\s?", "", s)`. -/
def subDash : Str → Str
  | '-' :: '-' :: r => dropOpt1Sp (r.dropWhile (fun c => c = '-'))
  | s => s

/-- `re.sub(r"^<!--\s?", "", s)`. -/
def subHtmlOpen : Str → Str
  | '<' :: '!' :: '-' :: '-' :: r => dropOpt1Sp r
  | s => s

/-- `re.sub(r"\s?-->$", "", s)`. -/
def subHtmlClose (s : Str) : Str :=
  match s.reverse with
  | '>' :: '-' :: '-' :: r =>
    (match r with
     | c :: cs => if pyIsSpace c then cs.reverse else r.reverse
     | [] => [])
  | _ => s

/-- `strip_comment_prefix` from `ai_coverage.py` (lines 159-177). -/
def stripCommentPre (line : Str) (fam : Family) : Str :=
  let s := pyStrip line
  let s :=
    match fam with
    | .block => subBlockStar (subBlockClose (subBlockOpen s))
    | .hash => subHash s
    | .dash => subDash s
    | .html => subHtmlClose (subHtmlOpen s)
  pyStrip s

/-- The separator marker `"========"`. -/
def sepMarker : Str := S "========"

/-- The loop of `extract_header_block`: returns the accumulated header
lines and whether the loop exited via `break` (a closing separator). -/
def extractGo (fam : Family) : List Str → Bool → List Str → List Str × Bool
  | [], _, acc => (acc, false)
  | line :: ls, inH, acc =>
    let cleaned := stripCommentPre line fam
    if containsL cleaned sepMarker = true ∧ inH = false then extractGo fam ls true acc
    else if containsL cleaned bannerC = true then extractGo fam ls inH acc
    else if inH = true then
      if containsL cleaned sepMarker = true then
        if acc ≠ [] then (acc, true) else extractGo fam ls inH acc
      else extractGo fam ls inH (acc ++ [cleaned])
    else extractGo fam ls inH acc

/-- `extract_header_block` from `ai_coverage.py` (lines 180-211). -/
def extract_header_block (content : Str) (fam : Family) : Option Str :=
  if ¬ containsL content bannerC then none
  else
    let acc := (extractGo fam (splitNL content) false []).1
    if acc = [] then none else some (joinNL acc)

/-- C2 counterexample: the claim asserts extraction fails whenever the
state machine never reaches `Done` by end of file.  On a file with the
banner, an opening separator and a content line but no closing
separator, the loop ends at EOF without a `break` (second component
`false`), yet extraction returns the collected content, not
"no header found". -/
theorem C2_cex :
    extract_header_block
        (S "# THIS FILE INCLUDES AI GENERATED CODE\n# ========\n# hello") .hash =
      some (S "hello") ∧
      (extractGo .hash
          (splitNL (S "# THIS FILE INCLUDES AI GENERATED CODE\n# ========\n# hello"))
          false []).2 = false := by
  constructor
  · decide
  · decide

/-- C2 (amended): extraction returns "no header found" exactly when the
banner phrase never occurs in the content or the accumulator of the
state machine ends empty; reaching `Done` is not required — an unclosed
block at end of file still yields the collected header.  In particular
a file with no banner anywhere yields no header even when a
separator-delimited block exists. -/
theorem C2_amended (content : Str) (fam : Family) :
    (containsL content bannerC = false → extract_header_block content fam = none) ∧
      (extract_header_block content fam = none ↔
        (containsL content bannerC = false ∨
          (extractGo fam (splitNL content) false []).1 = [])) := by
  constructor
  · intro hb
    unfold extract_header_block
    rw [if_pos (by simp [hb])]
  · unfold extract_header_block
    by_cases hb : containsL content bannerC
    · rw [if_neg (by simp [hb])]
      by_cases hacc : (extractGo fam (splitNL content) false []).1 = []
      · simp [hacc, hb]
      · simp [hacc, hb]
    · simp [hb]

/-- C2 witness: a file with a separator-delimited block but no banner
yields no header. -/
theorem C2_witness :
    containsL (S "// ========\n// block\n// ========") bannerC = false ∧
      extract_header_block (S "// ========\n// block\n// ========") .block = none :=
  ⟨by decide, (C2_amended (S "// ========\n// block\n// ========") .block).1 (by decide)⟩

/-- C7: while the extractor is collecting, a line whose stripped form
contains the separator marker (and is not a banner line, which rule 2
discards first) closes the header and stops consuming lines exactly
when the accumulator is nonempty; with an empty accumulator the
separator is discarded and collection continues.  Hence a banner
followed by two consecutive separators, then content, then a final
separator still extracts the content. -/
theorem C7_collect_close (fam : Family) (ls : List Str) (acc : List Str) (line : Str)
    (hsep : containsL (stripCommentPre line fam) sepMarker = true)
    (hban : containsL (stripCommentPre line fam) bannerC = false) :
    ((acc ≠ [] → extractGo fam (line :: ls) true acc = (acc, true)) ∧
      (acc = [] → extractGo fam (line :: ls) true acc = extractGo fam ls true acc)) ∧
      extract_header_block
        (S "# THIS FILE INCLUDES AI GENERATED CODE\n# ========\n# ========\n# real content\n# ========")
        .hash = some (S "real content") := by
  refine ⟨⟨?_, ?_⟩, by decide⟩
  · intro hne
    simp only [extractGo, hsep, hban]
    simp [hne]
  · intro hnil
    simp only [extractGo, hsep, hban]
    simp [hnil]

/-- C7 witness: with one collected line a separator closes the header at
once. -/
theorem C7_witness :
    extractGo .hash [S "# ========"] true [S "x"] = ([S "x"], true) :=
  ((C7_collect_close .hash [] [S "x"] (S "# ========") (by decide) (by decide)).1).1
    (by simp)

/-! ### The annotation parser (`parse_header`) -/

/-- Consumed-returning case-insensitive literal matcher (for captures). -/
def mLitCI : Str → Str → Option (Str × Str)
  | [], s => some ([], s)
  | _ :: _, [] => none
  | p :: ps, c :: cs =>
    if c.toLower = p.toLower then (mLitCI ps cs).map (fun pr => (c :: pr.1, pr.2)) else none

/-- Regex `\s+` with the consumed run. -/
def mSp1 : Str → Option (Str × Str)
  | [] => none
  | c :: cs =>
    if pyIsSpace c then some (c :: cs.takeWhile pyIsSpace, cs.dropWhile pyIsSpace) else none

/-- Sequential composition of consumed-returning matchers. -/
def mSeq2 (m1 m2 : Str → Option (Str × Str)) (u : Str) : Option (Str × Str) :=
  (m1 u).bind fun pr => (m2 pr.2).map fun qr => (pr.1 ++ qr.1, qr.2)

/-- Literal words separated by `\s+`. -/
def mWords : List Str → Str → Option (Str × Str)
  | [], u => some ([], u)
  | [w], u => mLitCI w u
  | w :: ws, u => mSeq2 (mLitCI w) (mSeq2 mSp1 (mWords ws)) u

/-- An optional single character (`?` on a character class). -/
def mOptC (p : Char → Bool) : Str → Option (Str × Str)
  | [] => some ([], [])
  | c :: cs => if p c then some ([c], cs) else some ([], c :: cs)

/-- Regex `\d+` (greedy; always followed by a non-digit token). -/
def mDigits1 (u : Str) : Option (Str × Str) :=
  let d := u.takeWhile pyIsDigit
  if d = [] then none else some (d, u.dropWhile pyIsDigit)

/-- Regex `\w+` (greedy; at the end of every pattern using it). -/
def mWord1 (u : Str) : Option (Str × Str) :=
  let w := u.takeWhile pyIsWord
  if w = [] then none else some (w, u.dropWhile pyIsWord)

/-- The quote class `` [`'"] `` of the entry grammar. -/
def isQuote (c : Char) : Bool := (S "`'\"").any (fun q => q = c)

/-- `ABOVE\s+50%?\s+IN\s+THIS\s+FILE` / `DOWN\s+...` with the leading word
as parameter. -/
def alt50 (lead : Str) : Str → Option (Str × Str) :=
  mSeq2 (mLitCI lead) (mSeq2 mSp1 (mSeq2 (mLitCI (S "50"))
    (mSeq2 (mOptC (fun c => c = '%')) (mSeq2 mSp1 (mWords [S "IN", S "THIS", S "FILE"])))))

/-- `RE_TYPE` matched at one position; returns group 1 (the matched
alternative's text). -/
def matchTypeAt (u : Str) : Option Str :=
  (matchLitCI (S "TYPE:") u).bind fun r =>
    let r2 := spaces0 r
    ((mWords [S "WHOLE", S "CODE", S "IN", S "THIS", S "FILE"] r2).orElse fun _ =>
      (alt50 (S "ABOVE") r2).orElse fun _ => alt50 (S "DOWN") r2).map fun pr => pr.1

/-- `RE_TYPE.search`. -/
def reTypeSearch (h : Str) : Option Str := searchO matchTypeAt h

/-- The `TYPE` classification of `parse_header` (lines 224-233):
the captured alternative is upper-cased, stripped, and tested for
`WHOLE` / `ABOVE` / `DOWN` in that order. -/
def parsedType (h : Str) : Option Str :=
  match reTypeSearch h with
  | none => none
  | some g =>
    let raw := pyStrip (pyUpperS g)
    if containsL raw (S "WHOLE") then some (S "WHOLE")
    else if containsL raw (S "ABOVE") then some (S "ABOVE_50")
    else if containsL raw (S "DOWN") then some (S "DOWN_50")
    else none

/-- `RE_<KIND>_WHOLE` matched at one position (`kw` is `METHOD`, `STRUCT`
or `TRAIT`); returns the captured name. -/
def matchKindWholeAt (kw : Str) (u : Str) : Option Str :=
  (mWords [S "WHOLE", S "CODE", S "IN", S "THE", kw] u).bind fun pr =>
    (mSp1 pr.2).bind fun sp =>
      (mOptC isQuote sp.2).bind fun q =>
        (mWord1 q.2).bind fun nm =>
          (mOptC isQuote nm.2).map fun _ => nm.1

/-- `RE_<KIND>_PARTIAL` matched at one position; returns the two digit
groups and the captured name. -/
def matchKindPartialAt (kw : Str) (u : Str) : Option (Str × Str × Str) :=
  (mDigits1 u).bind fun d1 =>
    (matchLitCI (S "~") (spaces0 d1.2)).bind fun r2 =>
      (mDigits1 (spaces0 r2)).bind fun d2 =>
        (mSp1 d2.2).bind fun sp =>
          (mWords [S "LINE", S "CODE", S "IN", S "THE", kw] sp.2).bind fun w =>
            (mSp1 w.2).bind fun sp2 =>
              (mOptC isQuote sp2.2).bind fun q =>
                (mWord1 q.2).bind fun nm =>
                  (mOptC isQuote nm.2).map fun _ => (d1.1, d2.1, nm.1)

/-- Lazy `(\S+?):` — the shortest nonempty run of non-space characters
followed by a colon; returns it and the text after the colon. -/
def lazySplit : Str → Option (Str × Str)
  | [] => none
  | c :: cs =>
    if pyIsSpace c then none
    else
      match cs with
      | ':' :: rest => some ([c], rest)
      | _ => (lazySplit cs).map fun pr => (c :: pr.1, pr.2)

/-- `RE_LIBRARY` matched at one position: `-\s*(\S+?):\s*(.+)`; returns
(name, reason).  The backtracking of `\s*(.+)` on an all-space tail
yields the final character. -/
def matchLibAt (u : Str) : Option (Str × Str) :=
  (matchLitCI (S "-") u).bind fun r =>
    (lazySplit (spaces0 r)).bind fun pr =>
      if pr.2 = [] then none
      else
        let k := pr.2.dropWhile pyIsSpace
        if k = [] then some (pr.1, [pr.2.getLast!]) else some (pr.1, k)

/-- `int(...)` on a captured `\d+` group. -/
def digitsVal (ds : Str) : Nat := ds.foldl (fun a c => 10 * a + (c.toNat - 48)) 0

/-- The structured result of `parse_header`. -/
structure Parsed where
  type : Option Str
  methods : List CEntry
  structs : List CEntry
  traits : List CEntry
  libraries : List LibEntry
deriving DecidableEq, Repr

/-- Section-header detection of `parse_header` (lines 240-251). -/
def sectionOf (line : Str) : Option Str :=
  if beginsWith (S "METHOD") line || beginsWith (S "FUNCTION") line then some (S "methods")
  else if beginsWith (S "STRUCT") line || beginsWith (S "OBJECT") line then some (S "structs")
  else if beginsWith (S "TRAIT") line || beginsWith (S "INTERFACE") line then some (S "traits")
  else if beginsWith (S "IMPORTED") line then some (S "libraries")
  else none

/-- Python `line.lstrip("- ")`. -/
def lstripDashSp (s : Str) : Str := s.dropWhile (fun c => c = '-' || c = ' ')

/-- The kind keyword of each entry section's regexes. -/
def kwOfSection (sec : Str) : Str :=
  if sec = S "methods" then S "METHOD"
  else if sec = S "structs" then S "STRUCT"
  else S "TRAIT"

/-- Append a parsed entry to the current section's list. -/
def addEntry (p : Parsed) (sec : Str) (e : CEntry) : Parsed :=
  if sec = S "methods" then { p with methods := p.methods ++ [e] }
  else if sec = S "structs" then { p with structs := p.structs ++ [e] }
  else { p with traits := p.traits ++ [e] }

/-- One iteration of the line loop of `parse_header` (lines 235-299). -/
def parseLine (st : Option Str × Parsed) (rawLine : Str) : Option Str × Parsed :=
  let line := pyStrip rawLine
  match sectionOf line with
  | some sec => (some sec, st.2)
  | none =>
    if ¬ (beginsWith (S "-") line = true) then st
    else
      match st.1 with
      | some sec =>
        if sec = S "methods" ∨ sec = S "structs" ∨ sec = S "traits" then
          let entry_text := pyStrip (lstripDashSp line)
          let kw := kwOfSection sec
          match searchO (matchKindWholeAt kw) entry_text with
          | some nm => (st.1, addEntry st.2 sec ⟨nm, S "WHOLE", none, none⟩)
          | none =>
            match searchO (matchKindPartialAt kw) entry_text with
            | some (d1, d2, nm) =>
              (st.1, addEntry st.2 sec ⟨nm, S "PARTIAL", some (digitsVal d1), some (digitsVal d2)⟩)
            | none => st
        else
          match searchO matchLibAt line with
          | some (nm, reason) =>
            (st.1, { st.2 with libraries := st.2.libraries ++ [⟨nm, pyStrip reason⟩] })
          | none => st
      | none => st

/-- `parse_header` from `ai_coverage.py` (lines 214-301). -/
def parse_header (h : Str) : Parsed :=
  ((splitNL h).foldl parseLine (none, ⟨parsedType h, [], [], [], []⟩)).2

/-! ### The tree aggregator (`scan_directory`) -/

/-- Per-language counters of `language_breakdown`. -/
structure LangStats where
  total : Nat
  ai : Nat
  ai_lines : Int
  total_lines : Nat
deriving DecidableEq, Repr

/-- A fresh `{"total": 0, "ai": 0, "ai_lines": 0, "total_lines": 0}`. -/
def zeroStats : LangStats := ⟨0, 0, 0, 0⟩

/-- A `FileReport` record. -/
structure FileReport where
  path : Str
  language : Str
  type_coverage : Str
  methods : List CEntry
  structs : List CEntry
  traits : List CEntry
  libraries : List LibEntry
  total_lines : Nat
  ai_lines_estimate : Int
deriving DecidableEq, Repr

/-- The `ProjectReport` aggregate (scan root and timestamp omitted —
no claim concerns them). -/
structure ProjectReport where
  total_files_scanned : Nat
  total_files_with_aigcap : Nat
  total_files_without_aigcap : Nat
  files : List FileReport
  files_without_header : List Str
  language_breakdown : Str → LangStats

/-- `LANG_MAP`: extension, language name, comment family. -/
def langMap : List (Str × Str × Family) :=
  [(S ".rs", S "Rust", .block), (S ".c", S "C", .block), (S ".h", S "C Header", .block),
   (S ".cpp", S "C++", .block), (S ".hpp", S "C++ Header", .block),
   (S ".java", S "Java", .block), (S ".js", S "JavaScript", .block),
   (S ".jsx", S "JSX", .block), (S ".ts", S "TypeScript", .block),
   (S ".tsx", S "TSX", .block), (S ".go", S "Go", .block),
   (S ".swift", S "Swift", .block), (S ".kt", S "Kotlin", .block),
   (S ".scala", S "Scala", .block), (S ".cs", S "C#", .block),
   (S ".css", S "CSS", .block), (S ".scss", S "SCSS", .block),
   (S ".py", S "Python", .hash), (S ".rb", S "Ruby", .hash),
   (S ".sh", S "Shell", .hash), (S ".bash", S "Bash", .hash),
   (S ".yaml", S "YAML", .hash), (S ".yml", S "YAML", .hash),
   (S ".toml", S "TOML", .hash), (S ".r", S "R", .hash),
   (S ".sql", S "SQL", .dash), (S ".lua", S "Lua", .dash),
   (S ".hs", S "Haskell", .dash), (S ".html", S "HTML", .html),
   (S ".xml", S "XML", .html), (S ".svg", S "SVG", .html),
   (S ".vue", S "Vue", .html)]

/-- `pathlib.Path(filename).suffix`: from the last dot, unless the dot is
leading or trailing in the name. -/
def pathSuffix (filename : Str) : Str :=
  let rev := filename.reverse
  let pre := rev.takeWhile (fun c => c ≠ '.')
  if pre.length = filename.length then []
  else if pre = [] then []
  else if rev.drop (pre.length + 1) = [] then []
  else '.' :: pre.reverse

/-- One file met by the walk: reported relative path, basename, and the
decoded content (`none` models a per-file read failure). -/
structure ScanFile where
  path : Str
  filename : Str
  content : Option Str
deriving Repr

/-- `count_lines`: the number of lines that are nonempty after `strip()`. -/
def count_lines (content : Str) : Nat :=
  ((splitNL content).filter (fun l => pyStrip l ≠ [])).length

/-- `LANG_MAP` lookup on the lower-cased suffix. -/
def langOf (f : ScanFile) : Option (Str × Str × Family) :=
  langMap.find? (fun e => e.1 == pyLowerS (pathSuffix f.filename))

/-- Pointwise update of the breakdown dictionary. -/
def updBD (bd : Str → LangStats) (lang : Str) (g : LangStats → LangStats) :
    Str → LangStats :=
  fun x => if x = lang then g (bd lang) else bd x

/-- The per-file body of the walk in `scan_directory` (lines 355-414). -/
def processFile (r : ProjectReport) (f : ScanFile) : ProjectReport :=
  match langOf f with
  | none => r
  | some (_, langName, fam) =>
    let r1 := { r with total_files_scanned := r.total_files_scanned + 1 }
    match f.content with
    | none => r1
    | some content =>
      match extract_header_block content fam with
      | none =>
        { r1 with
          total_files_without_aigcap := r1.total_files_without_aigcap + 1
          files_without_header := r1.files_without_header ++ [f.path]
          language_breakdown := updBD r1.language_breakdown langName
            (fun st => { st with total := st.total + 1
                                 total_lines := st.total_lines + count_lines content }) }
      | some hb =>
        let parsed := parse_header hb
        let total := count_lines content
        let ai := estimate_ai_lines total (parsed.type.getD (S "DOWN_50"))
          parsed.methods parsed.structs parsed.traits
        { r1 with
          total_files_with_aigcap := r1.total_files_with_aigcap + 1
          files := r1.files ++
            [⟨f.path, langName, parsed.type.getD (S "UNKNOWN"), parsed.methods,
              parsed.structs, parsed.traits, parsed.libraries, total, ai⟩]
          language_breakdown := updBD r1.language_breakdown langName
            (fun st => { st with total := st.total + 1
                                 ai := st.ai + 1
                                 ai_lines := st.ai_lines + ai
                                 total_lines := st.total_lines + total }) }

/-- `scan_directory`, abstracting `os.walk` into the list of recognised
candidate files it visits in discovery order. -/
def scan_directory (fs : List ScanFile) : ProjectReport :=
  fs.foldl processFile ⟨0, 0, 0, [], [], fun _ => zeroStats⟩

/-- The file is recognised (counted as scanned). -/
def recognizedB (f : ScanFile) : Bool := (langOf f).isSome

/-- The file is recognised but its read fails. -/
def readFailB (f : ScanFile) : Bool := (langOf f).isSome && f.content.isNone

/-- The file is recognised, readable, and a header is extracted. -/
def annotatedB (f : ScanFile) : Bool :=
  match langOf f, f.content with
  | some (_, _, fam), some c => (extract_header_block c fam).isSome
  | _, _ => false

/-- The file is recognised, readable, and no header is extracted. -/
def unannotatedB (f : ScanFile) : Bool :=
  match langOf f, f.content with
  | some (_, _, fam), some c => (extract_header_block c fam).isNone
  | _, _ => false

/-- The file is readable and lands in the given language bucket. -/
def inLangB (lang : Str) (f : ScanFile) : Bool :=
  match langOf f, f.content with
  | some (_, nm, _), some _ => nm == lang
  | _, _ => false

/-- Annotated file of the given language bucket. -/
def annotatedInLangB (lang : Str) (f : ScanFile) : Bool :=
  match langOf f, f.content with
  | some (_, nm, fam), some c => nm == lang && (extract_header_block c fam).isSome
  | _, _ => false

/-- Unannotated file of the given language bucket. -/
def unannotatedInLangB (lang : Str) (f : ScanFile) : Bool :=
  match langOf f, f.content with
  | some (_, nm, fam), some c => nm == lang && (extract_header_block c fam).isNone
  | _, _ => false

theorem processFile_scanned (r : ProjectReport) (f : ScanFile) :
    (processFile r f).total_files_scanned =
      r.total_files_scanned + (if recognizedB f then 1 else 0) := by
  unfold processFile recognizedB
  rcases hl : langOf f with _ | ⟨ext, langName, fam⟩
  · simp [hl]
  · rcases hc : f.content with _ | content
    · simp [hl, hc]
    · rcases hx : extract_header_block content fam with _ | hb <;> simp [hl, hc, hx]

theorem processFile_with (r : ProjectReport) (f : ScanFile) :
    (processFile r f).total_files_with_aigcap =
      r.total_files_with_aigcap + (if annotatedB f then 1 else 0) := by
  unfold processFile annotatedB
  rcases hl : langOf f with _ | ⟨ext, langName, fam⟩
  · simp [hl]
  · rcases hc : f.content with _ | content
    · simp [hl, hc]
    · rcases hx : extract_header_block content fam with _ | hb <;> simp [hl, hc, hx]

theorem processFile_without (r : ProjectReport) (f : ScanFile) :
    (processFile r f).total_files_without_aigcap =
      r.total_files_without_aigcap + (if unannotatedB f then 1 else 0) := by
  unfold processFile unannotatedB
  rcases hl : langOf f with _ | ⟨ext, langName, fam⟩
  · simp [hl]
  · rcases hc : f.content with _ | content
    · simp [hl, hc]
    · rcases hx : extract_header_block content fam with _ | hb <;> simp [hl, hc, hx]

theorem processFile_bd_total (r : ProjectReport) (f : ScanFile) (lang : Str) :
    ((processFile r f).language_breakdown lang).total =
      (r.language_breakdown lang).total + (if inLangB lang f then 1 else 0) := by
  unfold processFile inLangB
  rcases hl : langOf f with _ | ⟨ext, langName, fam⟩
  · simp [hl]
  · rcases hc : f.content with _ | content
    · simp [hl, hc]
    · rcases hx : extract_header_block content fam with _ | hb
      · by_cases heq : langName = lang
        · subst heq; simp [hl, hc, hx, updBD]
        · have hne : ¬ lang = langName := fun hcon => heq hcon.symm
          simp [hl, hc, hx, updBD, hne, beq_iff_eq, heq]
      · by_cases heq : langName = lang
        · subst heq; simp [hl, hc, hx, updBD]
        · have hne : ¬ lang = langName := fun hcon => heq hcon.symm
          simp [hl, hc, hx, updBD, hne, beq_iff_eq, heq]

theorem processFile_bd_ai (r : ProjectReport) (f : ScanFile) (lang : Str) :
    ((processFile r f).language_breakdown lang).ai =
      (r.language_breakdown lang).ai + (if annotatedInLangB lang f then 1 else 0) := by
  unfold processFile annotatedInLangB
  rcases hl : langOf f with _ | ⟨ext, langName, fam⟩
  · simp [hl]
  · rcases hc : f.content with _ | content
    · simp [hl, hc]
    · rcases hx : extract_header_block content fam with _ | hb
      · by_cases heq : langName = lang
        · subst heq; simp [hl, hc, hx, updBD]
        · have hne : ¬ lang = langName := fun hcon => heq hcon.symm
          simp [hl, hc, hx, updBD, hne, beq_iff_eq, heq]
      · by_cases heq : langName = lang
        · subst heq; simp [hl, hc, hx, updBD]
        · have hne : ¬ lang = langName := fun hcon => heq hcon.symm
          simp [hl, hc, hx, updBD, hne, beq_iff_eq, heq]

/-- Every counter of the fold, against spec-side counts. -/
theorem scan_counts (fs : List ScanFile) (r : ProjectReport) :
    (fs.foldl processFile r).total_files_scanned =
        r.total_files_scanned + fs.countP recognizedB ∧
      (fs.foldl processFile r).total_files_with_aigcap =
        r.total_files_with_aigcap + fs.countP annotatedB ∧
      (fs.foldl processFile r).total_files_without_aigcap =
        r.total_files_without_aigcap + fs.countP unannotatedB ∧
      ∀ lang,
        ((fs.foldl processFile r).language_breakdown lang).total =
            (r.language_breakdown lang).total + fs.countP (inLangB lang) ∧
          ((fs.foldl processFile r).language_breakdown lang).ai =
            (r.language_breakdown lang).ai + fs.countP (annotatedInLangB lang) := by
  induction fs generalizing r with
  | nil => simp
  | cons f fs ih =>
    simp only [List.foldl_cons, List.countP_cons]
    rcases ih (processFile r f) with ⟨h1, h2, h3, h4⟩
    refine ⟨?_, ?_, ?_, fun lang => ?_⟩
    · rw [h1, processFile_scanned]; omega
    · rw [h2, processFile_with]; omega
    · rw [h3, processFile_without]; omega
    · rcases h4 lang with ⟨ha, hb⟩
      constructor
      · rw [ha, processFile_bd_total]; omega
      · rw [hb, processFile_bd_ai]; omega

theorem countP_recognized_split (fs : List ScanFile) :
    fs.countP recognizedB =
      fs.countP annotatedB + fs.countP unannotatedB + fs.countP readFailB := by
  induction fs with
  | nil => simp
  | cons f fs ih =>
    simp only [List.countP_cons]
    rw [ih]
    unfold recognizedB annotatedB unannotatedB readFailB
    rcases hl : langOf f with _ | ⟨ext, nm, fam⟩
    · simp [hl]
    · rcases hc : f.content with _ | c
      · simp [hl, hc]; omega
      · rcases hx : extract_header_block c fam with _ | hb <;> simp [hl, hc, hx] <;> omega

theorem countP_lang_split (lang : Str) (fs : List ScanFile) :
    fs.countP (inLangB lang) =
      fs.countP (annotatedInLangB lang) + fs.countP (unannotatedInLangB lang) := by
  induction fs with
  | nil => simp
  | cons f fs ih =>
    simp only [List.countP_cons]
    rw [ih]
    unfold inLangB annotatedInLangB unannotatedInLangB
    rcases hl : langOf f with _ | ⟨ext, nm, fam⟩
    · simp [hl]
    · rcases hc : f.content with _ | c
      · simp [hl, hc]
      · rcases hx : extract_header_block c fam with _ | hb <;>
          by_cases heq : nm = lang <;> simp [hl, hc, hx, heq] <;> omega

/-- C3 counterexample: a scan meeting one recognised file whose read
fails counts it as scanned but neither as annotated nor as unannotated,
so `total_files_scanned = 1 ≠ 0 + 0 =
total_files_with_aigcap + total_files_without_aigcap`. -/
theorem C3_cex :
    (scan_directory [⟨S "a.py", S "a.py", none⟩]).total_files_scanned = 1 ∧
      (scan_directory [⟨S "a.py", S "a.py", none⟩]).total_files_with_aigcap = 0 ∧
      (scan_directory [⟨S "a.py", S "a.py", none⟩]).total_files_without_aigcap = 0 ∧
      (1 : Nat) ≠ 0 + 0 := by
  refine ⟨?_, ?_, ?_, by decide⟩ <;> decide

/-- C3 (amended): after every complete scan,
`total_files_scanned = total_files_with_aigcap +
total_files_without_aigcap + (number of recognised files whose read
failed)`; in particular the claimed equality holds whenever no
recognised file fails to read.  Within each language bucket the
equality always holds: a bucket's file total equals its annotated count
plus its unannotated count, because unreadable files never reach any
bucket. -/
theorem C3_amended (fs : List ScanFile) :
    ((scan_directory fs).total_files_scanned =
        (scan_directory fs).total_files_with_aigcap +
          (scan_directory fs).total_files_without_aigcap + fs.countP readFailB) ∧
      (∀ lang, ((scan_directory fs).language_breakdown lang).total =
          ((scan_directory fs).language_breakdown lang).ai +
            fs.countP (unannotatedInLangB lang)) ∧
      (fs.countP readFailB = 0 →
        (scan_directory fs).total_files_scanned =
          (scan_directory fs).total_files_with_aigcap +
            (scan_directory fs).total_files_without_aigcap) := by
  rcases scan_counts fs ⟨0, 0, 0, [], [], fun _ => zeroStats⟩ with ⟨h1, h2, h3, h4⟩
  unfold scan_directory
  have hsplit := countP_recognized_split fs
  refine ⟨?_, fun lang => ?_, ?_⟩
  · rw [h1, h2, h3]
    simp only [zeroStats]
    omega
  · rcases h4 lang with ⟨ha, hb⟩
    rw [ha, hb]
    have := countP_lang_split lang fs
    simp only [zeroStats]
    omega
  · intro h0
    rw [h1, h2, h3]
    simp only [zeroStats]
    omega

/-- C3 witness: on a one-file tree whose file reads successfully the
project-total equality holds. -/
theorem C3_witness :
    (scan_directory [⟨S "a.py", S "a.py", some (S "x = 1")⟩]).total_files_scanned =
      (scan_directory [⟨S "a.py", S "a.py", some (S "x = 1")⟩]).total_files_with_aigcap +
        (scan_directory [⟨S "a.py", S "a.py", some (S "x = 1")⟩]).total_files_without_aigcap :=
  (C3_amended [⟨S "a.py", S "a.py", some (S "x = 1")⟩]).2.2 (by decide)

/-- C6: for every file whose header extracts but whose header text
parses to no classification, the stored `FileReport` records
`type_coverage = "UNKNOWN"` while the line estimate is computed with the
`DOWN_50` (BelowHalf) classification; with no qualifying Partial entries
that estimate is the 25% base `pyInt025`, not zero. -/
theorem C6_unknown_default (path filename content : Str) (ext langName : Str)
    (fam : Family) (hdr : Str)
    (hl : langOf ⟨path, filename, some content⟩ = some (ext, langName, fam))
    (hx : extract_header_block content fam = some hdr)
    (ht : (parse_header hdr).type = none) :
    (scan_directory [⟨path, filename, some content⟩]).files =
      [⟨path, langName, S "UNKNOWN", (parse_header hdr).methods, (parse_header hdr).structs,
        (parse_header hdr).traits, (parse_header hdr).libraries, count_lines content,
        estimate_ai_lines (count_lines content) (S "DOWN_50") (parse_header hdr).methods
          (parse_header hdr).structs (parse_header hdr).traits⟩] ∧
      (partialSumSpec ((parse_header hdr).methods ++ (parse_header hdr).structs ++
            (parse_header hdr).traits) ≤ 0 →
        estimate_ai_lines (count_lines content) (S "DOWN_50") (parse_header hdr).methods
            (parse_header hdr).structs (parse_header hdr).traits =
          (pyInt025 (count_lines content) : Int)) := by
  constructor
  · show (processFile ⟨0, 0, 0, [], [], fun _ => zeroStats⟩
      ⟨path, filename, some content⟩).files = _
    unfold processFile
    rw [hl]
    simp only [hx, ht, Option.getD_none]
    simp
  · intro hsum
    have h := (estimate_policy (count_lines content) (S "DOWN_50") (parse_header hdr).methods
      (parse_header hdr).structs (parse_header hdr).traits).2 (Or.inr rfl) |>.2 hsum
    rw [h, if_neg (by decide)]

/-- C6 witness: a Python file with a header block carrying no `TYPE:`
phrase is stored as `UNKNOWN` and estimated at 25% of its 5 non-blank
lines. -/
theorem C6_witness :
    (scan_directory [⟨S "a.py", S "a.py",
        some (S "# ========\n# THIS FILE INCLUDES AI GENERATED CODE\n# unknown stuff\n# ========\nv = 1\nw = 2\nz = 3\nq = 4")⟩]).files =
      [⟨S "a.py", S "Python", S "UNKNOWN", [], [], [], [], 8,
        estimate_ai_lines 8 (S "DOWN_50") [] [] []⟩] := by
  have h := C6_unknown_default (S "a.py") (S "a.py")
    (S "# ========\n# THIS FILE INCLUDES AI GENERATED CODE\n# unknown stuff\n# ========\nv = 1\nw = 2\nz = 3\nq = 4")
    (S ".py") (S "Python") .hash (S "unknown stuff")
    (by decide) (by decide) (by decide)
  have h1 := h.1
  rw [h1]
  decide

/-! ### Claims about the classification (C5) -/

theorem dropWhile_of_head_false {p : Char → Bool} {l : Str} (hne : l ≠ [])
    (h : p (l.headI) = false) : l.dropWhile p = l := by
  cases l with
  | nil => rfl
  | cons c cs => simp only [List.headI] at h; simp [List.dropWhile_cons, h]

/-- Stripping keeps a nonempty space-free prefix intact. -/
theorem pyStrip_pre (pat x : Str) (hne : pat ≠ [])
    (hns : ∀ c ∈ pat, pyIsSpace c = false) :
    ∃ y, pyStrip (pat ++ x) = pat ++ y := by
  unfold pyStrip stripEnd
  obtain ⟨c, cs, rfl⟩ : ∃ c cs, pat = c :: cs := by
    cases pat with
    | nil => exact absurd rfl hne
    | cons c cs => exact ⟨c, cs, rfl⟩
  rw [List.cons_append, List.dropWhile_cons, if_neg (by simp [hns c (by simp)])]
  rw [show (c :: (cs ++ x)) = (c :: cs) ++ x from rfl, List.reverse_append,
    List.dropWhile_append]
  split_ifs with hemp
  · have hrev : (c :: cs).reverse ≠ [] := by simp
    have hhead : pyIsSpace ((c :: cs).reverse.headI) = false := by
      apply hns
      rw [← List.mem_reverse]
      cases hrr : (c :: cs).reverse with
      | nil => simp at hrr
      | cons a as => simp [List.headI]
    rw [dropWhile_of_head_false hrev hhead, List.reverse_reverse]
    exact ⟨[], by simp⟩
  · rw [List.reverse_append, List.reverse_reverse]
    exact ⟨(x.reverse.dropWhile pyIsSpace).reverse, rfl⟩

/-- A consumed-returning ci literal match: the input splits as the
consumed prefix (case-equivalent to the pattern) and the rest. -/
theorem mLitCI_parts {p u : Str} {pr : Str × Str} (h : mLitCI p u = some pr) :
    u = pr.1 ++ pr.2 ∧ pyUpperS pr.1 = pyUpperS p := by
  induction p generalizing u pr with
  | nil =>
    simp only [mLitCI, Option.some.injEq] at h
    rw [← h]
    exact ⟨rfl, rfl⟩
  | cons pc pcs ih =>
    cases u with
    | nil => simp [mLitCI] at h
    | cons c cs =>
      simp only [mLitCI] at h
      split_ifs at h with hc
      rcases hm : mLitCI pcs cs with _ | pr'
      · rw [hm] at h; simp at h
      · rw [hm] at h
        simp only [Option.map_some', Option.some.injEq] at h
        rcases ih hm with ⟨h1, h2⟩
        rw [← h]
        refine ⟨by simp [h1], ?_⟩
        simp only [pyUpperS, List.map_cons]
        rw [toUpper_eq_of_toLower_eq hc]
        simpa [pyUpperS] using h2

/-- Decompose a successful sequential match. -/
theorem mSeq2_parts {m1 m2 : Str → Option (Str × Str)} {u : Str} {pr : Str × Str}
    (h : mSeq2 m1 m2 u = some pr) :
    ∃ c1 r1 c2, m1 u = some (c1, r1) ∧ m2 r1 = some (c2, pr.2) ∧ pr.1 = c1 ++ c2 := by
  unfold mSeq2 at h
  rcases h1 : m1 u with _ | ⟨c1, r1⟩
  · rw [h1] at h; simp at h
  · rw [h1] at h
    simp only [Option.some_bind] at h
    rcases h2 : m2 r1 with _ | ⟨c2, r2⟩
    · rw [h2] at h; simp at h
    · rw [h2] at h
      simp only [Option.map_some', Option.some.injEq] at h
      rw [← h]
      exact ⟨c1, r1, c2, rfl, h2, rfl⟩

/-- The captured `RE_TYPE` alternative starts (up to case) with `WHOLE`,
`ABOVE` or `DOWN`. -/
theorem matchTypeAt_shape {u g : Str} (h : matchTypeAt u = some g) :
    (∃ y, pyUpperS g = S "WHOLE" ++ y) ∨ (∃ y, pyUpperS g = S "ABOVE" ++ y) ∨
      (∃ y, pyUpperS g = S "DOWN" ++ y) := by
  unfold matchTypeAt at h
  rcases h1 : matchLitCI (S "TYPE:") u with _ | r
  · rw [h1] at h; simp at h
  · rw [h1] at h
    simp only [Option.some_bind] at h
    rcases hw : mWords [S "WHOLE", S "CODE", S "IN", S "THIS", S "FILE"] (spaces0 r) with _ | prW
    · rcases ha : alt50 (S "ABOVE") (spaces0 r) with _ | prA
      · rcases hd : alt50 (S "DOWN") (spaces0 r) with _ | prD
        · rw [hw, ha, hd] at h; simp [Option.orElse] at h
        · rw [hw, ha, hd] at h
          simp only [Option.orElse, Option.map_some', Option.some.injEq] at h
          right; right
          unfold alt50 at hd
          rcases mSeq2_parts hd with ⟨c1, r1, c2, hm1, _, hcat⟩
          rcases mLitCI_parts hm1 with ⟨_, hup⟩
          refine ⟨pyUpperS c2, ?_⟩
          rw [← h, hcat]
          simp only [pyUpperS, List.map_append] at hup ⊢
          rw [hup]; rfl
      · rw [hw, ha] at h
        simp only [Option.orElse, Option.map_some', Option.some.injEq] at h
        right; left
        unfold alt50 at ha
        rcases mSeq2_parts ha with ⟨c1, r1, c2, hm1, _, hcat⟩
        rcases mLitCI_parts hm1 with ⟨_, hup⟩
        refine ⟨pyUpperS c2, ?_⟩
        rw [← h, hcat]
        simp only [pyUpperS, List.map_append] at hup ⊢
        rw [hup]; rfl
    · rw [hw] at h
      simp only [Option.orElse, Option.map_some', Option.some.injEq] at h
      left
      have hw' : mSeq2 (mLitCI (S "WHOLE"))
          (mSeq2 mSp1 (mWords [S "CODE", S "IN", S "THIS", S "FILE"])) (spaces0 r) = some prW := hw
      rcases mSeq2_parts hw' with ⟨c1, r1, c2, hm1, _, hcat⟩
      rcases mLitCI_parts hm1 with ⟨_, hup⟩
      refine ⟨pyUpperS c2, ?_⟩
      rw [← h, hcat]
      simp only [pyUpperS, List.map_append] at hup ⊢
      rw [hup]; rfl

theorem addEntry_type (p : Parsed) (sec : Str) (e : CEntry) :
    (addEntry p sec e).type = p.type := by
  unfold addEntry
  split_ifs <;> rfl

/-- The line loop never changes the parsed classification. -/
theorem parseLine_type (st : Option Str × Parsed) (l : Str) :
    (parseLine st l).2.type = st.2.type := by
  unfold parseLine
  rcases hs : sectionOf (pyStrip l) with _ | sec
  · simp only [hs]
    by_cases hdash : beginsWith (S "-") (pyStrip l) = true
    · rw [if_neg (by simp [hdash])]
      rcases h1 : st.1 with _ | sec'
      · simp only [h1]
      · simp only [h1]
        split_ifs with hmt
        · rcases hw : searchO (matchKindWholeAt (kwOfSection sec'))
              (pyStrip (lstripDashSp (pyStrip l))) with _ | nm
          · rcases hp : searchO (matchKindPartialAt (kwOfSection sec'))
                (pyStrip (lstripDashSp (pyStrip l))) with _ | trip
            · simp [hw, hp]
            · rcases trip with ⟨d1, d2, nm⟩
              simp [hw, hp, addEntry_type]
          · simp [hw, addEntry_type]
        · rcases hlib : searchO matchLibAt (pyStrip l) with _ | pr
          · simp [hlib]
          · rcases pr with ⟨nm, rsn⟩
            simp [hlib]
    · rw [if_pos (by simp [hdash])]
  · simp only [hs]

theorem parse_foldl_type (lines : List Str) (st : Option Str × Parsed) :
    ((lines.foldl parseLine st).2).type = st.2.type := by
  induction lines generalizing st with
  | nil => rfl
  | cons l ls ih => rw [List.foldl_cons, ih, parseLine_type]

/-- `parse_header` reports exactly the `RE_TYPE`-derived classification. -/
theorem parse_header_type (h : Str) : (parse_header h).type = parsedType h := by
  unfold parse_header
  rw [parse_foldl_type]

/-- C5 counterexample: the claim says the bare phrase
"whole code in this file" classifies the file as Whole; the code's
`RE_TYPE` requires a preceding `TYPE:`, so this header parses to no
classification (Unknown). -/
theorem C5_cex :
    (parse_header (S "whole code in this file")).type = none ∧
      (none : Option Str) ≠ some (S "WHOLE") := by
  exact ⟨by decide, by decide⟩

/-- A substring occurrence survives embedding in a larger text. -/
theorem containsL_slice {l pat : Str} (x y : Str) (h : containsL l pat = true) :
    containsL (x ++ l ++ y) pat = true := by
  rcases (containsL_iff_ex l pat).mp h with ⟨a, b, rfl⟩
  rw [containsL_iff_ex]
  exact ⟨x ++ a, b ++ y, by simp [List.append_assoc]⟩

theorem stripEnd_decomp (t : Str) :
    t = stripEnd t ++ (t.reverse.takeWhile pyIsSpace).reverse := by
  unfold stripEnd
  calc t = t.reverse.reverse := (List.reverse_reverse t).symm
    _ = (t.reverse.takeWhile pyIsSpace ++ t.reverse.dropWhile pyIsSpace).reverse := by
        rw [List.takeWhile_append_dropWhile]
    _ = (t.reverse.dropWhile pyIsSpace).reverse ++ (t.reverse.takeWhile pyIsSpace).reverse := by
        rw [List.reverse_append]

/-- `str.strip()` keeps a contiguous slice of its input. -/
theorem pyStrip_decomp (s : Str) : ∃ p1 p2, s = p1 ++ pyStrip s ++ p2 := by
  refine ⟨s.takeWhile pyIsSpace,
    ((s.dropWhile pyIsSpace).reverse.takeWhile pyIsSpace).reverse, ?_⟩
  unfold pyStrip
  calc s = s.takeWhile pyIsSpace ++ s.dropWhile pyIsSpace :=
        (List.takeWhile_append_dropWhile pyIsSpace s).symm
    _ = s.takeWhile pyIsSpace ++ (stripEnd (s.dropWhile pyIsSpace) ++
        ((s.dropWhile pyIsSpace).reverse.takeWhile pyIsSpace).reverse) := by
        rw [← stripEnd_decomp]
    _ = s.takeWhile pyIsSpace ++ stripEnd (s.dropWhile pyIsSpace) ++
        ((s.dropWhile pyIsSpace).reverse.takeWhile pyIsSpace).reverse := by
        rw [List.append_assoc]

theorem containsL_pyStrip {s pat : Str} (h : containsL (pyStrip s) pat = true) :
    containsL s pat = true := by
  rcases pyStrip_decomp s with ⟨p1, p2, hs⟩
  rw [hs]
  exact containsL_slice p1 p2 h

/-- `str.upper()` fixes whitespace characters. -/
theorem toUpper_space {c : Char} (hsp : pyIsSpace c = true) : c.toUpper = c := by
  simp only [pyIsSpace, Bool.or_eq_true, decide_eq_true_eq] at hsp
  rcases hsp with ((((rfl | rfl) | rfl) | rfl) | rfl) | rfl <;> decide

/-- The run consumed by `\s+` is all whitespace. -/
theorem mSp1_parts {u : Str} {pr : Str × Str} (h : mSp1 u = some pr) :
    ∀ c ∈ pr.1, pyIsSpace c = true := by
  cases u with
  | nil => simp [mSp1] at h
  | cons d ds =>
    have h2 : (if pyIsSpace d = true
        then some (d :: ds.takeWhile pyIsSpace, ds.dropWhile pyIsSpace) else none) = some pr := h
    split_ifs at h2 with hd
    · obtain rfl : pr = (d :: ds.takeWhile pyIsSpace, ds.dropWhile pyIsSpace) := by
        injection h2 with hh
        exact hh.symm
      intro c hc
      rcases List.mem_cons.mp hc with rfl | hc2
      · exact hd
      · exact List.mem_takeWhile_imp hc2

/-- The character consumed by an optional class satisfies the class. -/
theorem mOptC_parts {p : Char → Bool} {u : Str} {pr : Str × Str} (h : mOptC p u = some pr) :
    ∀ c ∈ pr.1, p c = true := by
  cases u with
  | nil =>
    have h2 : (some (([] : Str), ([] : Str)) : Option (Str × Str)) = some pr := h
    obtain rfl : pr = ([], []) := by
      injection h2 with hh
      exact hh.symm
    intro c hc
    simp at hc
  | cons d ds =>
    have h2 : (if p d = true then some ([d], ds) else some ([], d :: ds)) = some pr := h
    split_ifs at h2 with hd
    · obtain rfl : pr = ([d], ds) := by
        injection h2 with hh
        exact hh.symm
      intro c hc
      rw [List.mem_singleton.mp hc]
      exact hd
    · obtain rfl : pr = ([], d :: ds) := by
        injection h2 with hh
        exact hh.symm
      intro c hc
      simp at hc

/-- The run consumed by a ci literal upper-cases to the pattern's
upper-case letters. -/
theorem mLitCI_upper {p u : Str} {pr : Str × Str} (h : mLitCI p u = some pr) :
    ∀ c ∈ pr.1, c.toUpper ∈ pyUpperS p := by
  intro c hc
  rw [← (mLitCI_parts h).2]
  exact List.mem_map_of_mem Char.toUpper hc

/-- Everything the `50%?...IN THIS FILE` tail of the `ABOVE`/`DOWN`
alternatives consumes is whitespace, `%`, or a letter of
`50 IN THIS FILE` (up to case). -/
theorem alt50_tail {u : Str} {pr : Str × Str}
    (h : mSeq2 mSp1 (mSeq2 (mLitCI (S "50")) (mSeq2 (mOptC (fun c => c = '%'))
      (mSeq2 mSp1 (mWords [S "IN", S "THIS", S "FILE"])))) u = some pr) :
    ∀ c ∈ pr.1, pyIsSpace c = true ∨ c = '%' ∨ c.toUpper ∈ S "50INTHSFLE" := by
  rcases mSeq2_parts h with ⟨c1, r1, c2, h1, h2, hcat⟩
  rcases mSeq2_parts h2 with ⟨c3, r3, c4, h3, h4, hcat2⟩
  rcases mSeq2_parts h4 with ⟨c5, r5, c6, h5, h6, hcat3⟩
  rcases mSeq2_parts h6 with ⟨c7, r7, c8, h7, h8, hcat4⟩
  rw [show mWords [S "IN", S "THIS", S "FILE"] =
      mSeq2 (mLitCI (S "IN")) (mSeq2 mSp1 (mWords [S "THIS", S "FILE"])) from rfl] at h8
  rcases mSeq2_parts h8 with ⟨c9, r9, c10, h9, h10, hcat5⟩
  rcases mSeq2_parts h10 with ⟨c11, r11, c12, h11, h12, hcat6⟩
  rw [show mWords [S "THIS", S "FILE"] =
      mSeq2 (mLitCI (S "THIS")) (mSeq2 mSp1 (mWords [S "FILE"])) from rfl] at h12
  rcases mSeq2_parts h12 with ⟨c13, r13, c14, h13, h14, hcat7⟩
  rcases mSeq2_parts h14 with ⟨c15, r15, c16, h15, h16, hcat8⟩
  rw [show mWords [S "FILE"] = mLitCI (S "FILE") from rfl] at h16
  have hup50 : ∀ d ∈ pyUpperS (S "50"), d ∈ (S "50INTHSFLE" : Str) := by decide
  have hupIN : ∀ d ∈ pyUpperS (S "IN"), d ∈ (S "50INTHSFLE" : Str) := by decide
  have hupTHIS : ∀ d ∈ pyUpperS (S "THIS"), d ∈ (S "50INTHSFLE" : Str) := by decide
  have hupFILE : ∀ d ∈ pyUpperS (S "FILE"), d ∈ (S "50INTHSFLE" : Str) := by decide
  have hc2e : c2 = c3 ++ c4 := hcat2
  have hc4e : c4 = c5 ++ c6 := hcat3
  have hc6e : c6 = c7 ++ c8 := hcat4
  have hc8e : c8 = c9 ++ c10 := hcat5
  have hc10e : c10 = c11 ++ c12 := hcat6
  have hc12e : c12 = c13 ++ c14 := hcat7
  have hc14e : c14 = c15 ++ c16 := hcat8
  intro c hc
  rw [hcat, hc2e, hc4e, hc6e, hc8e, hc10e, hc12e, hc14e] at hc
  simp only [List.append_assoc, List.mem_append] at hc
  rcases hc with hc | hc | hc | hc | hc | hc | hc | hc | hc
  · exact Or.inl (mSp1_parts h1 c hc)
  · exact Or.inr (Or.inr (hup50 _ (mLitCI_upper h3 c hc)))
  · have := mOptC_parts h5 c hc
    simp only [decide_eq_true_eq] at this
    exact Or.inr (Or.inl this)
  · exact Or.inl (mSp1_parts h7 c hc)
  · exact Or.inr (Or.inr (hupIN _ (mLitCI_upper h9 c hc)))
  · exact Or.inl (mSp1_parts h11 c hc)
  · exact Or.inr (Or.inr (hupTHIS _ (mLitCI_upper h13 c hc)))
  · exact Or.inl (mSp1_parts h15 c hc)
  · exact Or.inr (Or.inr (hupFILE _ (mLitCI_upper h16 c hc)))

/-- The capture of an `alt50` alternative is the (ci) leading word
followed by the restricted tail. -/
theorem alt50_parts {lead u : Str} {pr : Str × Str} (h : alt50 lead u = some pr) :
    ∃ cl ct, pr.1 = cl ++ ct ∧ pyUpperS cl = pyUpperS lead ∧
      ∀ c ∈ ct, pyIsSpace c = true ∨ c = '%' ∨ c.toUpper ∈ S "50INTHSFLE" := by
  unfold alt50 at h
  rcases mSeq2_parts h with ⟨c1, r1, c2, h1, h2, hcat⟩
  exact ⟨c1, c2, hcat, (mLitCI_parts h1).2, alt50_tail h2⟩

theorem tail_upper_ne {c : Char}
    (h : pyIsSpace c = true ∨ c = '%' ∨ c.toUpper ∈ S "50INTHSFLE") :
    c.toUpper ≠ 'W' ∧ c.toUpper ≠ 'B' := by
  rcases h with hsp | rfl | hmem
  · rw [toUpper_space hsp]
    constructor <;> rintro rfl <;> exact absurd hsp (by decide)
  · exact ⟨by decide, by decide⟩
  · constructor <;> intro heq <;> rw [heq] at hmem <;> exact absurd hmem (by decide)

/-- `WHOLE` is not a substring of `DOWN` followed by `W`-free text: the
only `W` is followed by `N`. -/
theorem noWHOLE_down {R : Str} (hR : 'W' ∉ R) :
    containsL ('D' :: 'O' :: 'W' :: 'N' :: R) (S "WHOLE") = false := by
  by_contra hcon
  rw [Bool.not_eq_false] at hcon
  rcases (containsL_iff_ex _ _).mp hcon with ⟨x, y, hxy⟩
  have hxy2 : 'D' :: 'O' :: 'W' :: 'N' :: R = x ++ ('W' :: 'H' :: 'O' :: 'L' :: 'E' :: y) := by
    rw [hxy, List.append_assoc]
    rfl
  cases x with
  | nil => simp at hxy2
  | cons a x1 =>
    simp only [List.cons_append, List.cons.injEq] at hxy2
    rcases hxy2 with ⟨rfl, hxy3⟩
    cases x1 with
    | nil => simp at hxy3
    | cons b x2 =>
      simp only [List.cons_append, List.cons.injEq] at hxy3
      rcases hxy3 with ⟨rfl, hxy4⟩
      cases x2 with
      | nil => simp at hxy4
      | cons d x3 =>
        simp only [List.cons_append, List.cons.injEq] at hxy4
        rcases hxy4 with ⟨rfl, hxy5⟩
        apply hR
        have hWin : 'W' ∈ ('N' :: R) := by
          rw [hxy5]
          simp
        rcases List.mem_cons.mp hWin with heq | hmem
        · exact absurd heq (by decide)
        · exact hmem

theorem shape_clash {g p1 p2 : Str} (h1 : ∃ y, pyUpperS g = p1 ++ y)
    (h2 : ∃ y, pyUpperS g = p2 ++ y) (hne1 : p1 ≠ []) (hne2 : p2 ≠ [])
    (hhd : p1.headI ≠ p2.headI) : False := by
  rcases h1 with ⟨y1, hy1⟩
  rcases h2 with ⟨y2, hy2⟩
  have heq := hy1.symm.trans hy2
  obtain ⟨a, as, rfl⟩ : ∃ a as, p1 = a :: as := by
    cases p1 with
    | nil => exact absurd rfl hne1
    | cons a as => exact ⟨a, as, rfl⟩
  obtain ⟨b, bs, rfl⟩ : ∃ b bs, p2 = b :: bs := by
    cases p2 with
    | nil => exact absurd rfl hne2
    | cons b bs => exact ⟨b, bs, rfl⟩
  simp only [List.cons_append, List.cons.injEq] at heq
  simp only [List.headI] at hhd
  exact hhd heq.1

/-- The full containment profile of an `RE_TYPE` capture: which of the
three upper-cased tests of `parse_header` succeed, per alternative. -/
theorem matchTypeAt_strong {u g : Str} (h : matchTypeAt u = some g) :
    ((∃ y, pyUpperS g = S "WHOLE" ++ y) ∧
      containsL (pyStrip (pyUpperS g)) (S "WHOLE") = true) ∨
    ((∃ y, pyUpperS g = S "ABOVE" ++ y) ∧
      containsL (pyStrip (pyUpperS g)) (S "WHOLE") = false ∧
      containsL (pyStrip (pyUpperS g)) (S "ABOVE") = true) ∨
    ((∃ y, pyUpperS g = S "DOWN" ++ y) ∧
      containsL (pyStrip (pyUpperS g)) (S "WHOLE") = false ∧
      containsL (pyStrip (pyUpperS g)) (S "ABOVE") = false ∧
      containsL (pyStrip (pyUpperS g)) (S "DOWN") = true) := by
  unfold matchTypeAt at h
  rcases h1 : matchLitCI (S "TYPE:") u with _ | r
  · rw [h1] at h; simp at h
  · rw [h1] at h
    simp only [Option.some_bind] at h
    rcases hw : mWords [S "WHOLE", S "CODE", S "IN", S "THIS", S "FILE"] (spaces0 r) with _ | prW
    · rcases ha : alt50 (S "ABOVE") (spaces0 r) with _ | prA
      · rcases hd : alt50 (S "DOWN") (spaces0 r) with _ | prD
        · rw [hw, ha, hd] at h; simp [Option.orElse] at h
        · rw [hw, ha, hd] at h
          simp only [Option.orElse, Option.map_some', Option.some.injEq] at h
          rcases alt50_parts hd with ⟨cl, ct, hcat, hclU, hct⟩
          have hclU2 : List.map Char.toUpper cl = S "DOWN" := by
            rw [show List.map Char.toUpper cl = pyUpperS cl from rfl, hclU]
            decide
          have hgU : pyUpperS g = S "DOWN" ++ pyUpperS ct := by
            rw [← h, hcat]
            simp only [pyUpperS, List.map_append]
            rw [hclU2]
          have hWct : 'W' ∉ pyUpperS ct := by
            intro hmem
            rcases List.mem_map.mp (by simpa [pyUpperS] using hmem) with ⟨e, he, hdeq⟩
            exact (tail_upper_ne (hct e he)).1 hdeq
          have hBg : 'B' ∉ pyUpperS g := by
            rw [hgU]
            intro hmem
            rcases List.mem_append.mp hmem with hmem1 | hmem2
            · exact absurd hmem1 (by decide)
            · rcases List.mem_map.mp (by simpa [pyUpperS] using hmem2) with ⟨e, he, hdeq⟩
              exact (tail_upper_ne (hct e he)).2 hdeq
          refine Or.inr (Or.inr ⟨⟨pyUpperS ct, hgU⟩, ?_, ?_, ?_⟩)
          · by_contra hcon
            rw [Bool.not_eq_false] at hcon
            have hcon2 := containsL_pyStrip hcon
            rw [hgU, show (S "DOWN" ++ pyUpperS ct) =
                'D' :: 'O' :: 'W' :: 'N' :: pyUpperS ct from rfl,
              noWHOLE_down hWct] at hcon2
            exact absurd hcon2 (by decide)
          · by_contra hcon
            rw [Bool.not_eq_false] at hcon
            exact hBg (mem_of_containsL (containsL_pyStrip hcon) 'B' (by decide))
          · obtain ⟨z, hz⟩ := pyStrip_pre (S "DOWN") (pyUpperS ct) (by decide) (by decide)
            rw [hgU, hz, containsL_iff_ex]
            exact ⟨[], z, rfl⟩
      · rw [hw, ha] at h
        simp only [Option.orElse, Option.map_some', Option.some.injEq] at h
        rcases alt50_parts ha with ⟨cl, ct, hcat, hclU, hct⟩
        have hclU2 : List.map Char.toUpper cl = S "ABOVE" := by
          rw [show List.map Char.toUpper cl = pyUpperS cl from rfl, hclU]
          decide
        have hgU : pyUpperS g = S "ABOVE" ++ pyUpperS ct := by
          rw [← h, hcat]
          simp only [pyUpperS, List.map_append]
          rw [hclU2]
        have hWg : 'W' ∉ pyUpperS g := by
          rw [hgU]
          intro hmem
          rcases List.mem_append.mp hmem with hmem1 | hmem2
          · exact absurd hmem1 (by decide)
          · rcases List.mem_map.mp (by simpa [pyUpperS] using hmem2) with ⟨e, he, hdeq⟩
            exact (tail_upper_ne (hct e he)).1 hdeq
        refine Or.inr (Or.inl ⟨⟨pyUpperS ct, hgU⟩, ?_, ?_⟩)
        · by_contra hcon
          rw [Bool.not_eq_false] at hcon
          exact hWg (mem_of_containsL (containsL_pyStrip hcon) 'W' (by decide))
        · obtain ⟨z, hz⟩ := pyStrip_pre (S "ABOVE") (pyUpperS ct) (by decide) (by decide)
          rw [hgU, hz, containsL_iff_ex]
          exact ⟨[], z, rfl⟩
    · rw [hw] at h
      simp only [Option.orElse, Option.map_some', Option.some.injEq] at h
      have hw2 : mSeq2 (mLitCI (S "WHOLE"))
          (mSeq2 mSp1 (mWords [S "CODE", S "IN", S "THIS", S "FILE"])) (spaces0 r) =
          some prW := hw
      rcases mSeq2_parts hw2 with ⟨c1, r1, c2, hm1, hm2, hcat⟩
      have hclU2 : List.map Char.toUpper c1 = S "WHOLE" := by
        rw [show List.map Char.toUpper c1 = pyUpperS c1 from rfl, (mLitCI_parts hm1).2]
        decide
      have hgU : pyUpperS g = S "WHOLE" ++ pyUpperS c2 := by
        rw [← h, hcat]
        simp only [pyUpperS, List.map_append]
        rw [hclU2]
      refine Or.inl ⟨⟨pyUpperS c2, hgU⟩, ?_⟩
      obtain ⟨z, hz⟩ := pyStrip_pre (S "WHOLE") (pyUpperS c2) (by decide) (by decide)
      rw [hgU, hz, containsL_iff_ex]
      exact ⟨[], z, rfl⟩


/-- C5 (amended): the classification is determined by a
case-insensitive leftmost search for `TYPE:` followed by optional
whitespace and one of the three fixed phrases (`%` optional after
`50`); the matched alternative always starts (up to case) with `WHOLE`,
`ABOVE` or `DOWN`, and an alternative starting `WHOLE` yields Whole,
`ABOVE` yields AboveHalf, `DOWN` yields BelowHalf; with no such `TYPE:`
declaration — in particular for the bare phrases — the classification
is Unknown (`None`). -/
theorem C5_amended (h : Str) :
    (reTypeSearch h = none → (parse_header h).type = none) ∧
    (∀ g, reTypeSearch h = some g →
      ((∃ y, pyUpperS g = S "WHOLE" ++ y) ∨ (∃ y, pyUpperS g = S "ABOVE" ++ y) ∨
        (∃ y, pyUpperS g = S "DOWN" ++ y)) ∧
      ((∃ y, pyUpperS g = S "WHOLE" ++ y) → (parse_header h).type = some (S "WHOLE")) ∧
      ((∃ y, pyUpperS g = S "ABOVE" ++ y) → (parse_header h).type = some (S "ABOVE_50")) ∧
      ((∃ y, pyUpperS g = S "DOWN" ++ y) → (parse_header h).type = some (S "DOWN_50"))) := by
  constructor
  · intro hn
    rw [parse_header_type]
    unfold parsedType
    rw [hn]
  · intro g hg
    have hty := parse_header_type h
    have hcompute : parsedType h =
        (if containsL (pyStrip (pyUpperS g)) (S "WHOLE") then some (S "WHOLE")
         else if containsL (pyStrip (pyUpperS g)) (S "ABOVE") then some (S "ABOVE_50")
         else if containsL (pyStrip (pyUpperS g)) (S "DOWN") then some (S "DOWN_50")
         else none) := by
      unfold parsedType
      rw [hg]
    rcases searchO_some hg with ⟨t, _, hmt⟩
    rcases matchTypeAt_strong hmt with ⟨hsh, hcW⟩ | ⟨hsh, hfW, hcA⟩ | ⟨hsh, hfW, hfA, hcD⟩
    · refine ⟨Or.inl hsh, fun _ => ?_, fun hy => ?_, fun hy => ?_⟩
      · rw [hty, hcompute, if_pos hcW]
      · exact (shape_clash hy hsh (by decide) (by decide) (by decide)).elim
      · exact (shape_clash hy hsh (by decide) (by decide) (by decide)).elim
    · refine ⟨Or.inr (Or.inl hsh), fun hy => ?_, fun _ => ?_, fun hy => ?_⟩
      · exact (shape_clash hy hsh (by decide) (by decide) (by decide)).elim
      · rw [hty, hcompute, if_neg (by simp [hfW]), if_pos hcA]
      · exact (shape_clash hy hsh (by decide) (by decide) (by decide)).elim
    · refine ⟨Or.inr (Or.inr hsh), fun hy => ?_, fun hy => ?_, fun _ => ?_⟩
      · exact (shape_clash hy hsh (by decide) (by decide) (by decide)).elim
      · exact (shape_clash hy hsh (by decide) (by decide) (by decide)).elim
      · rw [hty, hcompute, if_neg (by simp [hfW]), if_neg (by simp [hfA]), if_pos hcD]

/-- C5 witness: a lower-case, doubly-spaced, `%`-less `ABOVE` header is
matched and classified AboveHalf; a header with no `TYPE:` declaration
is classified Unknown. -/
theorem C5_witness :
    (reTypeSearch (S "type: above  50 in this file") =
        some (S "above  50 in this file") ∧
      (parse_header (S "type: above  50 in this file")).type = some (S "ABOVE_50")) ∧
    (reTypeSearch (S "METHOD:\n- notes only") = none ∧
      (parse_header (S "METHOD:\n- notes only")).type = none) :=
  ⟨⟨by decide,
    (((C5_amended (S "type: above  50 in this file")).2 (S "above  50 in this file")
        (by decide)).2.2.1) ⟨S "  50 IN THIS FILE", by decide⟩⟩,
   ⟨by decide, (C5_amended (S "METHOD:\n- notes only")).1 (by decide)⟩⟩

/-! ### Round-trip of synthesized headers (C9): helper lemmas -/

theorem headI_append {l m : Str} (h : l ≠ []) : (l ++ m).headI = l.headI := by
  cases l with
  | nil => exact absurd rfl h
  | cons c cs => rfl

theorem pyStrip_noop {s : Str} (hne : s ≠ []) (h1 : pyIsSpace s.headI = false)
    (h2 : pyIsSpace s.reverse.headI = false) : pyStrip s = s := by
  unfold pyStrip stripEnd
  rw [dropWhile_of_head_false hne h1, dropWhile_of_head_false (by simpa using hne) h2,
    List.reverse_reverse]

theorem takeWhile_all {p : Char → Bool} {l : Str} (h : ∀ c ∈ l, p c = true) :
    l.takeWhile p = l := by
  induction l with
  | nil => rfl
  | cons c cs ih =>
    rw [List.takeWhile_cons, if_pos (h c (by simp)), ih (fun x hx => h x (by simp [hx]))]

theorem dropWhile_all {p : Char → Bool} {l : Str} (h : ∀ c ∈ l, p c = true) :
    l.dropWhile p = [] := by
  induction l with
  | nil => rfl
  | cons c cs ih =>
    rw [List.dropWhile_cons, if_pos (h c (by simp))]
    exact ih (fun x hx => h x (by simp [hx]))

theorem takeWhile_append_stop {p : Char → Bool} {l : Str} {c' : Char} {r : Str}
    (h : ∀ c ∈ l, p c = true) (hc : p c' = false) :
    (l ++ c' :: r).takeWhile p = l := by
  induction l with
  | nil => simp [List.takeWhile_cons, hc]
  | cons c cs ih =>
    rw [List.cons_append, List.takeWhile_cons, if_pos (h c (by simp)),
      ih (fun x hx => h x (by simp [hx]))]

theorem dropWhile_append_stop {p : Char → Bool} {l : Str} {c' : Char} {r : Str}
    (h : ∀ c ∈ l, p c = true) (hc : p c' = false) :
    (l ++ c' :: r).dropWhile p = c' :: r := by
  induction l with
  | nil => simp [List.dropWhile_cons, hc]
  | cons c cs ih =>
    rw [List.cons_append, List.dropWhile_cons, if_pos (h c (by simp))]
    exact ih (fun x hx => h x (by simp [hx]))

theorem pyIsWord_not_space {c : Char} (h : pyIsWord c = true) : pyIsSpace c = false := by
  by_contra hsp
  rw [Bool.not_eq_false] at hsp
  simp only [pyIsSpace, Bool.or_eq_true, decide_eq_true_eq] at hsp
  rcases hsp with ((((rfl | rfl) | rfl) | rfl) | rfl) | rfl <;> simp [pyIsWord, pyIsDigit] at h

theorem pyIsDigit_word {c : Char} (h : pyIsDigit c = true) : pyIsWord c = true := by
  simp only [pyIsWord, Bool.or_eq_true]
  exact Or.inl (Or.inl (Or.inl h))

theorem pyIsDigit_not_space {c : Char} (h : pyIsDigit c = true) : pyIsSpace c = false :=
  pyIsWord_not_space (pyIsDigit_word h)

theorem toLower_ne_of_digit {c : Char} (h : pyIsDigit c = true) : c.toLower ≠ 'w' := by
  intro hc
  have h119 : ('w').toNat = 119 := by decide
  have hn := congrArg Char.toNat hc
  rw [toNat_toLower, h119] at hn
  simp only [pyIsDigit, Bool.and_eq_true, decide_eq_true_eq] at h
  split at hn <;> omega

theorem toLower_eq_colon {c : Char} (h : c.toLower = ':') : c = ':' := by
  have h58 : (':').toNat = 58 := by decide
  have hn := congrArg Char.toNat h
  rw [toNat_toLower, h58] at hn
  apply char_eq_of_toNat_eq
  rw [h58]
  split at hn <;> omega

theorem pyIsWord_not_quote {c : Char} (h : pyIsWord c = true) : isQuote c = false := by
  by_contra hq
  rw [Bool.not_eq_false] at hq
  simp only [isQuote, List.any_eq_true, decide_eq_true_eq] at hq
  rcases hq with ⟨q, hqmem, rfl⟩
  revert hqmem
  simp only [pyIsWord, pyIsDigit, Bool.or_eq_true, Bool.and_eq_true, decide_eq_true_eq] at h
  intro hqmem
  rcases (by simpa [S] using hqmem : q = '`' ∨ q = '\'' ∨ q = '"') with rfl | rfl | rfl <;>
    revert h <;> decide

theorem pyIsWord_ne {c : Char} (h : pyIsWord c = true) :
    c ≠ '\n' ∧ c ≠ '=' ∧ c ≠ ':' ∧ c ≠ '-' ∧ c ≠ ' ' ∧ c ≠ '~' ∧ c ≠ '/' ∧ c ≠ '#' := by
  refine ⟨?_, ?_, ?_, ?_, ?_, ?_, ?_, ?_⟩ <;> rintro rfl <;>
    simp [pyIsWord, pyIsDigit] at h

theorem suffix_append_cases {t x y : Str} (h : t <:+ x ++ y) :
    t <:+ y ∨ ∃ t', t' <:+ x ∧ t' ≠ [] ∧ t = t' ++ y := by
  induction x with
  | nil => exact Or.inl (by simpa using h)
  | cons c cs ih =>
    rcases h with ⟨a, ha⟩
    cases a with
    | nil =>
      right
      exact ⟨c :: cs, List.suffix_rfl, by simp, by simpa using ha⟩
    | cons d ds =>
      simp only [List.cons_append, List.cons.injEq] at ha
      rcases ih ⟨ds, ha.2⟩ with h1 | ⟨t', ht', hne, rfl⟩
      · exact Or.inl h1
      · exact Or.inr ⟨t', ht'.trans (List.suffix_cons c cs), hne, rfl⟩

theorem searchO_none_all {α : Type} {m : Str → Option α} {s : Str}
    (h : searchO m s = none) : ∀ t, t <:+ s → m t = none := by
  induction s with
  | nil =>
    intro t ht
    rw [List.suffix_nil.mp ht]
    simpa [searchO] using h
  | cons c cs ih =>
    simp only [searchO] at h
    rcases hm : m (c :: cs) with _ | v
    · rw [hm] at h
      intro t ht
      rcases List.suffix_cons_iff.mp ht with rfl | ht'
      · exact hm
      · exact ih h t ht'
    · rw [hm] at h
      cases h

theorem searchO_none_append {α : Type} {m : Str → Option α} {x y : Str}
    (hx : ∀ t, t <:+ x → t ≠ [] → m (t ++ y) = none) (hy : searchO m y = none) :
    searchO m (x ++ y) = none := by
  apply searchO_none
  intro t ht
  rcases suffix_append_cases ht with h1 | ⟨t', ht', hne, rfl⟩
  · exact searchO_none_all hy t h1
  · exact hx t' ht' hne

/-- Decimal digit character of a value below ten. -/
def digitChar10 : Nat → Char
  | 0 => '0'
  | 1 => '1'
  | 2 => '2'
  | 3 => '3'
  | 4 => '4'
  | 5 => '5'
  | 6 => '6'
  | 7 => '7'
  | 8 => '8'
  | 9 => '9'
  | _ => '*'

/-- Decimal notation of a natural number (fuel-indexed helper). -/
def natStrAux : Nat → Nat → Str
  | 0, _ => []
  | f + 1, n => if n < 10 then [digitChar10 n] else natStrAux f (n / 10) ++ [digitChar10 (n % 10)]

/-- Decimal notation of a natural number, as the synthesizer writes it. -/
def natStr (n : Nat) : Str := natStrAux (n + 1) n

theorem digitChar10_digit {d : Nat} (h : d < 10) : pyIsDigit (digitChar10 d) = true := by
  interval_cases d <;> decide

theorem digitChar10_val {d : Nat} (h : d < 10) : (digitChar10 d).toNat - 48 = d := by
  interval_cases d <;> decide

theorem natStrAux_spec : ∀ f n, n < f →
    natStrAux f n ≠ [] ∧ (∀ c ∈ natStrAux f n, pyIsDigit c = true) ∧
      digitsVal (natStrAux f n) = n := by
  intro f
  induction f with
  | zero =>
    intro n hn
    omega
  | succ f ih =>
    intro n hn
    by_cases h10 : n < 10
    · refine ⟨by simp [natStrAux, h10], ?_, ?_⟩
      · intro c hc
        simp only [natStrAux, if_pos h10, List.mem_singleton] at hc
        rw [hc]
        exact digitChar10_digit h10
      · simp only [natStrAux, if_pos h10, digitsVal, List.foldl_cons, List.foldl_nil]
        have := digitChar10_val h10
        omega
    · have hdiv : n / 10 < f := by
        have h1 : n / 10 < n := Nat.div_lt_self (by omega) (by norm_num)
        omega
      rcases ih (n / 10) hdiv with ⟨hne, hdig, hval⟩
      refine ⟨by simp [natStrAux, h10], ?_, ?_⟩
      · intro c hc
        simp only [natStrAux, if_neg h10, List.mem_append, List.mem_singleton] at hc
        rcases hc with hc | rfl
        · exact hdig c hc
        · exact digitChar10_digit (Nat.mod_lt _ (by norm_num))
      · simp only [natStrAux, if_neg h10, digitsVal, List.foldl_append, List.foldl_cons,
          List.foldl_nil]
        unfold digitsVal at hval
        rw [hval]
        have := digitChar10_val (show n % 10 < 10 from Nat.mod_lt _ (by norm_num))
        omega

theorem natStr_ne_nil (n : Nat) : natStr n ≠ [] := (natStrAux_spec (n + 1) n (by omega)).1

theorem natStr_digits (n : Nat) : ∀ c ∈ natStr n, pyIsDigit c = true :=
  (natStrAux_spec (n + 1) n (by omega)).2.1

/-- `int` round-trips the synthesizer's decimal notation. -/
theorem digitsVal_natStr (n : Nat) : digitsVal (natStr n) = n :=
  (natStrAux_spec (n + 1) n (by omega)).2.2

/-! ### Synthesis of wire-format headers -/

/-- Declared coverage of one synthesized entry. -/
inductive SynCov
  | whole
  | part (s e : Nat)
deriving DecidableEq, Repr

/-- One synthesized coverage entry. -/
structure SynEntry where
  name : Str
  cov : SynCov
deriving DecidableEq, Repr

/-- A grammatical entry: a nonempty name of word characters. -/
def validEntry (e : SynEntry) : Prop :=
  e.name ≠ [] ∧ ∀ ch ∈ e.name, pyIsWord ch = true

/-- The four classifications of the wire format. -/
inductive SynClass
  | whole
  | above
  | below
  | unknown
deriving DecidableEq, Repr

/-- The `TYPE:` line of a classification (none for Unknown). -/
def typeLinesOf : SynClass → List Str
  | .whole => [S "TYPE: WHOLE CODE IN THIS FILE"]
  | .above => [S "TYPE: ABOVE 50% IN THIS FILE"]
  | .below => [S "TYPE: DOWN 50% IN THIS FILE"]
  | .unknown => []

/-- The classification the parser reports for each synthesized class. -/
def classOf : SynClass → Option Str
  | .whole => some (S "WHOLE")
  | .above => some (S "ABOVE_50")
  | .below => some (S "DOWN_50")
  | .unknown => none

/-- A dash-prefixed entry line per the §4.3 grammar. -/
def entryBody (kw : Str) (e : SynEntry) : Str :=
  match e.cov with
  | .whole => S "- WHOLE CODE IN THE " ++ kw ++ S " " ++ e.name
  | .part a b =>
    S "- " ++ natStr a ++ S "~" ++ natStr b ++ S " LINE CODE IN THE " ++ kw ++ S " " ++ e.name

/-- The parsed entry the parser should recover. -/
def toCEntry (e : SynEntry) : CEntry :=
  match e.cov with
  | .whole => ⟨e.name, S "WHOLE", none, none⟩
  | .part a b => ⟨e.name, S "PARTIAL", some a, some b⟩

/-- The content lines of a synthesized header between the separators. -/
def innerLines (c : SynClass) (ms ss ts : List SynEntry) : List Str :=
  typeLinesOf c ++ [S "METHOD"] ++ ms.map (entryBody (S "METHOD")) ++
    [S "STRUCT"] ++ ss.map (entryBody (S "STRUCT")) ++
    [S "TRAIT"] ++ ts.map (entryBody (S "TRAIT"))

/-- A full wire-format header file in the hash comment dialect: banner
line, opening separator, content, closing separator. -/
def synthesize (c : SynClass) (ms ss ts : List SynEntry) : Str :=
  joinNL ([S "# " ++ bannerC, S "# ========"] ++
    (innerLines c ms ss ts).map (fun l => S "# " ++ l) ++ [S "# ========"])

theorem entryBody_chars {kw : Str} {e : SynEntry} (hkw : ∀ ch ∈ kw, pyIsWord ch = true)
    (he : validEntry e) :
    ∀ c ∈ entryBody kw e, pyIsWord c = true ∨ c = '-' ∨ c = ' ' ∨ c = '~' := by
  have hcon1 : ∀ c ∈ S "- WHOLE CODE IN THE ",
      pyIsWord c = true ∨ c = '-' ∨ c = ' ' ∨ c = '~' := by decide
  have hcon2 : ∀ c ∈ S "- ", pyIsWord c = true ∨ c = '-' ∨ c = ' ' ∨ c = '~' := by decide
  have hcon3 : ∀ c ∈ S " LINE CODE IN THE ",
      pyIsWord c = true ∨ c = '-' ∨ c = ' ' ∨ c = '~' := by decide
  intro c hc
  unfold entryBody at hc
  rcases e with ⟨nm, cov⟩
  rcases cov with _ | ⟨a, b⟩
  · simp only [List.append_assoc, List.mem_append] at hc
    rcases hc with hc | hc | hc | hc
    · exact hcon1 c hc
    · exact Or.inl (hkw c hc)
    · simp only [S] at hc
      rcases (by simpa using hc : c = ' ') with rfl
      exact Or.inr (Or.inr (Or.inl rfl))
    · exact Or.inl (he.2 c hc)
  · simp only [List.append_assoc, List.mem_append] at hc
    rcases hc with hc | hc | hc | hc | hc | hc | hc | hc
    · exact hcon2 c hc
    · exact Or.inl (pyIsDigit_word (natStr_digits a c hc))
    · rcases (by simpa [S] using hc : c = '~') with rfl
      exact Or.inr (Or.inr (Or.inr rfl))
    · exact Or.inl (pyIsDigit_word (natStr_digits b c hc))
    · exact hcon3 c hc
    · exact Or.inl (hkw c hc)
    · rcases (by simpa [S] using hc : c = ' ') with rfl
      exact Or.inr (Or.inr (Or.inl rfl))
    · exact Or.inl (he.2 c hc)

theorem mem_joinNL {c : Char} {ls : List Str} (h : c ∈ joinNL ls) :
    c = '\n' ∨ ∃ l ∈ ls, c ∈ l := by
  induction ls with
  | nil => simp [joinNL] at h
  | cons l ls ih =>
    cases ls with
    | nil => exact Or.inr ⟨l, by simp, by simpa [joinNL] using h⟩
    | cons m ms =>
      rw [show joinNL (l :: m :: ms) = l ++ '\n' :: joinNL (m :: ms) from rfl] at h
      rcases List.mem_append.mp h with h1 | h2
      · exact Or.inr ⟨l, by simp, h1⟩
      · rcases List.mem_cons.mp h2 with rfl | h3
        · exact Or.inl rfl
        · rcases ih h3 with h4 | ⟨x, hx, hcx⟩
          · exact Or.inl h4
          · exact Or.inr ⟨x, by simp [hx], hcx⟩

/-- An occurrence of a pattern headed by a character absent from a
leading segment lies entirely in the rest. -/
theorem contains_shift {stuff rest pat : Str} {c0 : Char} (hpat : pat.headI = c0)
    (hne : pat ≠ []) (hstuff : ∀ c ∈ stuff, c ≠ c0)
    (h : containsL (stuff ++ rest) pat = true) : containsL rest pat = true := by
  rw [containsL_iff_ex] at h ⊢
  rcases h with ⟨a, b, hab⟩
  have hab' : stuff ++ rest = a ++ (pat ++ b) := by rw [hab, List.append_assoc]
  rcases List.append_eq_append_iff.mp hab' with ⟨w, hw1, hw2⟩ | ⟨w, hw1, hw2⟩
  · exact ⟨w, b, by rw [hw2, List.append_assoc]⟩
  · cases w with
    | nil =>
      exact ⟨[], b, by simpa using hw2.symm⟩
    | cons d ws =>
      exfalso
      have hd : d = c0 := by
        have h1 : (pat ++ b).headI = c0 := by rw [headI_append hne, hpat]
        have h2 : ((d :: ws) ++ rest).headI = d := rfl
        rw [← hw2] at h2
        rw [h1] at h2
        exact h2.symm
      apply hstuff d _ hd
      rw [hw1]
      simp

/-- The banner cannot occur in a line made of a short prefix followed by
word characters: the banner's space at offset 31 would have to land on a
word character. -/
theorem banner_not_in (pre nm : Str) (hlen : pre.length ≤ 31)
    (hw : ∀ c ∈ nm, pyIsWord c = true) : containsL (pre ++ nm) bannerC = false := by
  by_contra h
  rw [Bool.not_eq_false, containsL_iff_ex] at h
  rcases h with ⟨a, b, hab⟩
  have hmed : (pre ++ nm)[a.length + 31]? = some ' ' := by
    rw [hab, List.append_assoc, List.getElem?_append]
    rw [if_neg (by omega)]
    simp only [Nat.add_sub_cancel_left]
    rw [List.getElem?_append, if_pos (by decide)]
    decide
  rw [List.getElem?_append, if_neg (by omega)] at hmed
  have hmem : (' ' : Char) ∈ nm := by
    have := List.getElem?_eq_some.mp hmed
    rcases this with ⟨hlt, hval⟩
    rw [← hval]
    exact List.getElem_mem hlt
  have := hw ' ' hmem
  simp [pyIsWord, pyIsDigit] at this

/-- What the extractor needs of each synthesized content line. -/
def goodLine (l : Str) : Prop :=
  l ≠ [] ∧ pyIsSpace l.headI = false ∧ pyIsSpace l.reverse.headI = false ∧
    '\n' ∉ l ∧ containsL l sepMarker = false ∧ containsL l bannerC = false

theorem stripHash_raw {l : Str} (hne : l ≠ []) (hh : pyIsSpace l.headI = false)
    (hl : pyIsSpace l.reverse.headI = false) :
    stripCommentPre (S "# " ++ l) .hash = l := by
  have h1 : pyStrip (S "# " ++ l) = S "# " ++ l := by
    apply pyStrip_noop (by simp [S])
    · rfl
    · rw [show (S "# " ++ l).reverse = l.reverse ++ [' ', '#'] from by simp [S],
        headI_append (by simpa using hne)]
      exact hl
  unfold stripCommentPre
  simp only [h1]
  have h2 : subHash (S "# " ++ l) = l := by
    show dropOpt1Sp (List.dropWhile (fun c => decide (c = '#')) (' ' :: l)) = l
    rw [List.dropWhile_cons, if_neg (by decide)]
    show (if pyIsSpace ' ' = true then l else ' ' :: l) = l
    rw [if_pos (by decide)]
  rw [h2]
  exact pyStrip_noop hne hh hl

theorem extractGo_content_lines (L rest acc : List Str) (h : ∀ l ∈ L, goodLine l) :
    extractGo .hash ((L.map (fun l => S "# " ++ l)) ++ rest) true acc =
      extractGo .hash rest true (acc ++ L) := by
  induction L generalizing acc with
  | nil => simp
  | cons l ls ih =>
    obtain ⟨hne, hh, hl, hnl, hsep, hban⟩ := h l (by simp)
    have hclean := stripHash_raw hne hh hl
    simp only [List.map_cons, List.cons_append]
    rw [show extractGo .hash ((S "# " ++ l) :: (ls.map (fun l => S "# " ++ l) ++ rest)) true acc =
      extractGo .hash (ls.map (fun l => S "# " ++ l) ++ rest) true (acc ++ [l]) from by
        simp only [extractGo, hclean, hsep, hban]
        simp]
    rw [ih (acc ++ [l]) (fun x hx => h x (by simp [hx]))]
    simp

/-- The inner line list always contains the `METHOD` section line. -/
theorem innerLines_ne_nil (c : SynClass) (ms ss ts : List SynEntry) :
    innerLines c ms ss ts ≠ [] := by
  cases c <;> simp [innerLines, typeLinesOf]

theorem goodLine_entry {kw : Str} {e : SynEntry} (hkw : ∀ c ∈ kw, pyIsWord c = true)
    (hkwlen : kw.length ≤ 10) (he : validEntry e) : goodLine (entryBody kw e) := by
  have hchars := entryBody_chars hkw he
  have hbody_ne : entryBody kw e ≠ [] := by
    rcases e with ⟨nm, cov⟩
    rcases cov with _ | ⟨a, b⟩ <;> simp [entryBody, S]
  have hhead : (entryBody kw e).headI = '-' := by
    rcases e with ⟨nm, cov⟩
    rcases cov with _ | ⟨a, b⟩ <;> rfl
  refine ⟨hbody_ne, by rw [hhead]; decide, ?_, ?_, ?_, ?_⟩
  · -- last character is the last of the name, a word character
    have hsplit : ∃ x, entryBody kw e = x ++ e.name := by
      rcases e with ⟨nm, cov⟩
      rcases cov with _ | ⟨a, b⟩
      · exact ⟨S "- WHOLE CODE IN THE " ++ kw ++ S " ", by simp [entryBody, List.append_assoc]⟩
      · exact ⟨S "- " ++ natStr a ++ S "~" ++ natStr b ++ S " LINE CODE IN THE " ++ kw ++ S " ",
          by simp [entryBody, List.append_assoc]⟩
    rcases hsplit with ⟨x, hx⟩
    rw [hx, List.reverse_append, headI_append (by simpa using he.1)]
    apply pyIsWord_not_space
    apply he.2
    rw [← List.mem_reverse]
    cases hrr : e.name.reverse with
    | nil => exact absurd (by simpa using hrr) he.1
    | cons d ds => simp [List.headI]
  · intro hmem
    rcases hchars '\n' hmem with hw | h1 | h1 | h1
    · simp [pyIsWord, pyIsDigit] at hw
    · exact absurd h1 (by decide)
    · exact absurd h1 (by decide)
    · exact absurd h1 (by decide)
  · apply containsL_eq_false_of_not_mem (c := '=') (by decide)
    intro hmem
    rcases hchars '=' hmem with hw | h1 | h1 | h1 <;> simp_all [pyIsWord, pyIsDigit]
  · -- the banner cannot occur in an entry line
    rcases e with ⟨nm, cov⟩
    rcases cov with _ | ⟨a, b⟩
    · have hx : entryBody kw ⟨nm, .whole⟩ =
          (S "- WHOLE CODE IN THE " ++ kw ++ S " ") ++ nm := by
        simp [entryBody, List.append_assoc]
      rw [hx]
      apply banner_not_in
      · simp only [List.length_append, S]
        have : (S "- WHOLE CODE IN THE ").length = 20 := by decide
        simp [S] at this ⊢
        omega
      · exact he.2
    · by_contra hcon
      rw [Bool.not_eq_false] at hcon
      have hx : entryBody kw ⟨nm, .part a b⟩ =
          (S "- " ++ (natStr a ++ (S "~" ++ natStr b))) ++
            ((S " LINE CODE IN THE " ++ kw ++ S " ") ++ nm) := by
        simp [entryBody, List.append_assoc]
      rw [hx] at hcon
      have hrest := contains_shift (show bannerC.headI = 'T' from by decide) (by decide) ?_ hcon
      · have := banner_not_in (S " LINE CODE IN THE " ++ kw ++ S " ") nm
          (by
            simp only [List.length_append, S]
            have : (S " LINE CODE IN THE ").length = 18 := by decide
            simp [S] at this ⊢
            omega)
          he.2
        rw [this] at hrest
        cases hrest
      · intro ch hch
        simp only [List.mem_append] at hch
        have hdig : ∀ d : Char, pyIsDigit d = true → d ≠ 'T' := by
          intro d hd hTd
          rw [hTd] at hd
          simp [pyIsDigit] at hd
        rcases hch with hch | hch | hch | hch
        · rcases (by simpa [S] using hch : ch = '-' ∨ ch = ' ') with rfl | rfl <;> decide
        · exact hdig ch (natStr_digits a ch hch)
        · rcases (by simpa [S] using hch : ch = '~') with rfl
          decide
        · exact hdig ch (natStr_digits b ch hch)

theorem goodLine_inner {c : SynClass} {ms ss ts : List SynEntry}
    (hm : ∀ e ∈ ms, validEntry e) (hs : ∀ e ∈ ss, validEntry e)
    (ht : ∀ e ∈ ts, validEntry e) :
    ∀ l ∈ innerLines c ms ss ts, goodLine l := by
  have hM : goodLine (S "METHOD") := by
    refine ⟨by decide, by decide, by decide, by decide, by decide, by decide⟩
  have hS : goodLine (S "STRUCT") := by
    refine ⟨by decide, by decide, by decide, by decide, by decide, by decide⟩
  have hT : goodLine (S "TRAIT") := by
    refine ⟨by decide, by decide, by decide, by decide, by decide, by decide⟩
  have htype : ∀ l ∈ typeLinesOf c, goodLine l := by
    cases c <;> intro l hl <;> simp only [typeLinesOf, List.mem_singleton] at hl <;>
      first
      | (subst hl
         refine ⟨by decide, by decide, by decide, by decide, by decide, by decide⟩)
      | cases hl
  intro l hl
  simp only [innerLines, List.append_assoc, List.mem_append, List.mem_singleton,
    List.mem_map] at hl
  rcases hl with hl | rfl | ⟨e, he, rfl⟩ | rfl | ⟨e, he, rfl⟩ | rfl | ⟨e, he, rfl⟩
  · exact htype l hl
  · exact hM
  · exact goodLine_entry (by decide) (by decide) (hm e he)
  · exact hS
  · exact goodLine_entry (by decide) (by decide) (hs e he)
  · exact hT
  · exact goodLine_entry (by decide) (by decide) (ht e he)

/-- Extraction of a synthesized header recovers exactly the joined inner
lines. -/
theorem synthesize_extract (c : SynClass) (ms ss ts : List SynEntry)
    (hm : ∀ e ∈ ms, validEntry e) (hs : ∀ e ∈ ss, validEntry e)
    (ht : ∀ e ∈ ts, validEntry e) :
    extract_header_block (synthesize c ms ss ts) .hash =
      some (joinNL (innerLines c ms ss ts)) := by
  have hgood : ∀ l ∈ innerLines c ms ss ts, goodLine l := goodLine_inner hm hs ht
  have hraw : ∀ l ∈ ([S "# " ++ bannerC, S "# ========"] ++
      (innerLines c ms ss ts).map (fun l => S "# " ++ l) ++ [S "# ========"]), '\n' ∉ l := by
    intro l hl
    simp only [List.append_assoc, List.mem_append, List.mem_cons, List.mem_singleton,
      List.mem_map, List.not_mem_nil, or_false] at hl
    rcases hl with (rfl | rfl) | ⟨x, hx, rfl⟩ | rfl
    · decide
    · decide
    · intro hmem
      rcases List.mem_append.mp hmem with h1 | h2
      · simp [S] at h1
      · exact (hgood x hx).2.2.2.1 h2
    · decide
  have hsplit : splitNL (synthesize c ms ss ts) =
      [S "# " ++ bannerC, S "# ========"] ++
        (innerLines c ms ss ts).map (fun l => S "# " ++ l) ++ [S "# ========"] := by
    unfold synthesize
    exact splitNL_joinNL _ (by simp) hraw
  have hbannerin : containsL (synthesize c ms ss ts) bannerC = true := by
    rw [containsL_iff_ex]
    refine ⟨S "# ", '\n' :: joinNL ((S "# ========") ::
      ((innerLines c ms ss ts).map (fun l => S "# " ++ l) ++ [S "# ========"])), ?_⟩
    unfold synthesize
    rw [show ([S "# " ++ bannerC, S "# ========"] ++
        (innerLines c ms ss ts).map (fun l => S "# " ++ l) ++ [S "# ========"]) =
      (S "# " ++ bannerC) :: ((S "# ========") ::
        ((innerLines c ms ss ts).map (fun l => S "# " ++ l) ++ [S "# ========"])) from by simp]
    rw [show joinNL ((S "# " ++ bannerC) :: ((S "# ========") ::
        ((innerLines c ms ss ts).map (fun l => S "# " ++ l) ++ [S "# ========"]))) =
      (S "# " ++ bannerC) ++ '\n' :: joinNL ((S "# ========") ::
        ((innerLines c ms ss ts).map (fun l => S "# " ++ l) ++ [S "# ========"])) from rfl]
  unfold extract_header_block
  rw [if_neg (by simp [hbannerin])]
  rw [hsplit]
  have hstep12 : ∀ rest : List Str,
      extractGo .hash ((S "# " ++ bannerC) :: (S "# ========") :: rest) false [] =
        extractGo .hash rest true [] := by
    intro rest
    have hc1 : stripCommentPre (S "# " ++ bannerC) .hash = bannerC :=
      stripHash_raw (by decide) (by decide) (by decide)
    have hc2 : stripCommentPre (S "# ========") .hash = S "========" := by decide
    rw [show extractGo .hash ((S "# " ++ bannerC) :: (S "# ========") :: rest) false [] =
      extractGo .hash ((S "# ========") :: rest) false [] from by
        simp only [extractGo, hc1]
        rw [if_neg (by decide), if_pos (by decide)]]
    simp only [extractGo, hc2]
    rw [if_pos (by decide)]
  rw [show ([S "# " ++ bannerC, S "# ========"] ++
      (innerLines c ms ss ts).map (fun l => S "# " ++ l) ++ [S "# ========"]) =
    (S "# " ++ bannerC) :: (S "# ========") ::
      ((innerLines c ms ss ts).map (fun l => S "# " ++ l) ++ [S "# ========"]) from by simp]
  rw [hstep12, extractGo_content_lines _ _ _ hgood]
  have hfinal : extractGo .hash [S "# ========"] true ([] ++ innerLines c ms ss ts) =
      (innerLines c ms ss ts, true) := by
    have hc2 : stripCommentPre (S "# ========") .hash = S "========" := by decide
    simp only [extractGo, hc2, List.nil_append]
    rw [if_neg (show ¬(containsL (S "========") sepMarker = true ∧ (true : Bool) = false) by
        decide),
      if_neg (show ¬(containsL (S "========") bannerC = true) by decide),
      if_pos trivial,
      if_pos (show containsL (S "========") sepMarker = true by decide),
      if_pos (innerLines_ne_nil c ms ss ts)]
  rw [hfinal]
  simp [innerLines_ne_nil c ms ss ts]


/-! ### Matching synthesized entry lines (C9, continued) -/

theorem headI_mem {l : Str} (h : l ≠ []) : l.headI ∈ l := by
  cases l with
  | nil => exact absurd rfl h
  | cons c cs => simp [List.headI]

theorem mSp1_one {c : Char} {r : Str} (hc : pyIsSpace c = true)
    (hr : r = [] ∨ pyIsSpace r.headI = false) : mSp1 (c :: r) = some ([c], r) := by
  show (if pyIsSpace c = true
      then some (c :: r.takeWhile pyIsSpace, r.dropWhile pyIsSpace) else none) = some ([c], r)
  rw [if_pos hc]
  rcases hr with rfl | hr
  · rfl
  · cases r with
    | nil => rfl
    | cons d ds =>
      simp only [List.headI] at hr
      rw [List.takeWhile_cons, if_neg (by simp [hr]), List.dropWhile_cons, if_neg (by simp [hr])]

theorem mOptC_skip {p : Char → Bool} {l : Str} (hne : l ≠ []) (h : p l.headI = false) :
    mOptC p l = some ([], l) := by
  cases l with
  | nil => exact absurd rfl hne
  | cons c cs =>
    simp only [List.headI] at h
    show (if p c = true then some ([c], cs) else some ([], c :: cs)) = some ([], c :: cs)
    rw [if_neg (by simp [h])]

theorem mWord1_all {w : Str} (hne : w ≠ []) (hw : ∀ c ∈ w, pyIsWord c = true) :
    mWord1 w = some (w, []) := by
  unfold mWord1
  rw [takeWhile_all hw, dropWhile_all hw, if_neg hne]

theorem mDigits1_pre {l : Str} {c' : Char} {r : Str} (hl : ∀ c ∈ l, pyIsDigit c = true)
    (hlne : l ≠ []) (hc : pyIsDigit c' = false) :
    mDigits1 (l ++ c' :: r) = some (l, c' :: r) := by
  simp only [mDigits1]
  rw [takeWhile_append_stop hl hc, dropWhile_append_stop hl hc, if_neg hlne]

theorem spaces0_noop {l : Str} (hne : l ≠ []) (h : pyIsSpace l.headI = false) :
    spaces0 l = l := dropWhile_of_head_false hne h

/-- A successful `RE_TYPE` position match implies a colon in the text. -/
theorem matchTypeAt_colon {u g : Str} (h : matchTypeAt u = some g) : ':' ∈ u := by
  unfold matchTypeAt at h
  rcases h1 : matchLitCI (S "TYPE:") u with _ | r
  · rw [h1] at h; simp at h
  · rcases matchLitCI_chars h1 ':' (by decide) with ⟨d, hd, hdeq⟩
    rw [show (':' : Char).toLower = ':' from by decide] at hdeq
    rw [← toLower_eq_colon hdeq]
    exact hd

/-- `RE_TYPE.search` fails on colon-free text. -/
theorem reTypeSearch_none_noColon {h : Str} (hc : ∀ ch ∈ h, ch ≠ ':') :
    reTypeSearch h = none := by
  apply searchO_none
  intro t ht
  rcases hmt : matchTypeAt t with _ | g
  · rfl
  · exact absurd rfl (hc ':' (ht.subset (matchTypeAt_colon hmt)))

/-- The whole-coverage entry regex fails where the text does not start
with a `w`/`W`. -/
theorem matchKindWholeAt_none_head {kw t : Str} (h : t = [] ∨ t.headI.toLower ≠ 'w') :
    matchKindWholeAt kw t = none := by
  have hlit : mLitCI (S "WHOLE") t = none := by
    cases t with
    | nil => rfl
    | cons c cs =>
      replace h : c.toLower ≠ 'w' := by
        rcases h with h | h
        · exact absurd h (by simp)
        · simpa using h
      rw [show (S "WHOLE") = 'W' :: S "HOLE" from rfl]
      simp only [mLitCI]
      rw [if_neg (by rw [show ('W').toLower = 'w' from by decide]; exact h)]
  unfold matchKindWholeAt
  rw [show mWords [S "WHOLE", S "CODE", S "IN", S "THE", kw] t =
      mSeq2 (mLitCI (S "WHOLE")) (mSeq2 mSp1 (mWords [S "CODE", S "IN", S "THE", kw])) t from rfl]
  simp [mSeq2, hlit]

/-- The whole-coverage entry regex fails inside an unbroken run of word
characters (no space for its `\s+`). -/
theorem matchKindWholeAt_none_word {kw t : Str} (hword : ∀ c ∈ t, pyIsWord c = true) :
    matchKindWholeAt kw t = none := by
  unfold matchKindWholeAt
  rw [show mWords [S "WHOLE", S "CODE", S "IN", S "THE", kw] t =
      mSeq2 (mLitCI (S "WHOLE")) (mSeq2 mSp1 (mWords [S "CODE", S "IN", S "THE", kw])) t from rfl]
  rcases hm : mLitCI (S "WHOLE") t with _ | pr
  · simp [mSeq2, hm]
  · have hparts := (mLitCI_parts hm).1
    have hsp : mSp1 pr.2 = none := by
      rcases hr : pr.2 with _ | ⟨c, cs⟩
      · rfl
      · have hct : c ∈ t := by rw [hparts, hr]; simp
        show (if pyIsSpace c = true
            then some (c :: List.takeWhile pyIsSpace cs, List.dropWhile pyIsSpace cs)
            else none) = (none : Option (Str × Str))
        rw [if_neg (by simp [pyIsWord_not_space (hword c hct)])]
    simp [mSeq2, hm, hsp]

/-- Suffix positions inside a `w`-free region never start a
whole-coverage match. -/
theorem regionW {seg y kw : Str} (hseg : ∀ c ∈ seg, c.toLower ≠ 'w') :
    ∀ t, t <:+ seg → t ≠ [] → matchKindWholeAt kw (t ++ y) = none := by
  intro t ht hne
  apply matchKindWholeAt_none_head
  right
  rw [headI_append hne]
  exact hseg _ (ht.subset (headI_mem hne))

/-- The whole-coverage search fails everywhere on a synthesized partial
entry's text. -/
theorem searchWhole_partial_none {kw nm : Str} (hkwnw : ∀ c ∈ kw, c.toLower ≠ 'w')
    (hnm : ∀ c ∈ nm, pyIsWord c = true) (a b : Nat) :
    searchO (matchKindWholeAt kw)
      (natStr a ++ (S "~" ++ (natStr b ++ (S " LINE CODE IN THE " ++
        (kw ++ (S " " ++ nm)))))) = none := by
  have hdiga : ∀ c ∈ natStr a, c.toLower ≠ 'w' :=
    fun c hc => toLower_ne_of_digit (natStr_digits a c hc)
  have hdigb : ∀ c ∈ natStr b, c.toLower ≠ 'w' :=
    fun c hc => toLower_ne_of_digit (natStr_digits b c hc)
  refine searchO_none_append (regionW hdiga) (searchO_none_append (regionW (by decide))
    (searchO_none_append (regionW hdigb) (searchO_none_append (regionW (by decide))
      (searchO_none_append (regionW hkwnw) (searchO_none_append (regionW (by decide)) ?_)))))
  apply searchO_none
  intro t ht
  exact matchKindWholeAt_none_word (fun c hc => hnm c (ht.subset hc))

/-- The `\s+[quote]?(\w+)[quote]?` coda of the entry regexes on
`' ' :: name` with a word-character name captures exactly the name:
the `\s+` run. -/
theorem entry_sp_name {nm : Str} (hne : nm ≠ []) (hw : ∀ c ∈ nm, pyIsWord c = true) :
    mSp1 (' ' :: nm) = some ([' '], nm) :=
  mSp1_one (by decide) (by
    cases nm with
    | nil => exact Or.inl rfl
    | cons n ns => exact Or.inr (pyIsWord_not_space (hw n (by simp))))

/-- The whole-coverage entry regex matches a synthesized whole entry's
text at position 0 and captures the name. -/
theorem matchKindWholeAt_hit {kw : Str}
    (hkwm : kw = S "METHOD" ∨ kw = S "STRUCT" ∨ kw = S "TRAIT")
    {nm : Str} (hne : nm ≠ []) (hw : ∀ c ∈ nm, pyIsWord c = true) :
    matchKindWholeAt kw (S "WHOLE CODE IN THE " ++ kw ++ S " " ++ nm) = some nm := by
  have f1 : mSp1 (' ' :: nm) = some ([' '], nm) := entry_sp_name hne hw
  have f2 : mOptC isQuote nm = some ([], nm) :=
    mOptC_skip hne (pyIsWord_not_quote (hw _ (headI_mem hne)))
  have f3 : mWord1 nm = some (nm, []) := mWord1_all hne hw
  rcases hkwm with rfl | rfl | rfl
  · rw [show (S "WHOLE CODE IN THE " ++ S "METHOD" ++ S " " ++ nm) =
        S "WHOLE CODE IN THE METHOD" ++ ' ' :: nm from rfl]
    unfold matchKindWholeAt
    rw [show mWords [S "WHOLE", S "CODE", S "IN", S "THE", S "METHOD"]
        (S "WHOLE CODE IN THE METHOD" ++ ' ' :: nm) =
        some (S "WHOLE CODE IN THE METHOD", ' ' :: nm) from rfl]
    simp [f1, f2, f3, show mOptC isQuote ([] : Str) = some ([], []) from rfl]
  · rw [show (S "WHOLE CODE IN THE " ++ S "STRUCT" ++ S " " ++ nm) =
        S "WHOLE CODE IN THE STRUCT" ++ ' ' :: nm from rfl]
    unfold matchKindWholeAt
    rw [show mWords [S "WHOLE", S "CODE", S "IN", S "THE", S "STRUCT"]
        (S "WHOLE CODE IN THE STRUCT" ++ ' ' :: nm) =
        some (S "WHOLE CODE IN THE STRUCT", ' ' :: nm) from rfl]
    simp [f1, f2, f3, show mOptC isQuote ([] : Str) = some ([], []) from rfl]
  · rw [show (S "WHOLE CODE IN THE " ++ S "TRAIT" ++ S " " ++ nm) =
        S "WHOLE CODE IN THE TRAIT" ++ ' ' :: nm from rfl]
    unfold matchKindWholeAt
    rw [show mWords [S "WHOLE", S "CODE", S "IN", S "THE", S "TRAIT"]
        (S "WHOLE CODE IN THE TRAIT" ++ ' ' :: nm) =
        some (S "WHOLE CODE IN THE TRAIT", ' ' :: nm) from rfl]
    simp [f1, f2, f3, show mOptC isQuote ([] : Str) = some ([], []) from rfl]

/-- The partial-coverage entry regex matches a synthesized partial
entry's text at position 0, capturing the two bounds and the name. -/
theorem matchKindPartialAt_hit {kw : Str}
    (hkwm : kw = S "METHOD" ∨ kw = S "STRUCT" ∨ kw = S "TRAIT")
    {nm : Str} (hne : nm ≠ []) (hw : ∀ c ∈ nm, pyIsWord c = true) (a b : Nat) :
    matchKindPartialAt kw
      (natStr a ++ (S "~" ++ (natStr b ++ (S " LINE CODE IN THE " ++ (kw ++ (S " " ++ nm)))))) =
      some (natStr a, natStr b, nm) := by
  have f1 : mSp1 (' ' :: nm) = some ([' '], nm) := entry_sp_name hne hw
  have f2 : mOptC isQuote nm = some ([], nm) :=
    mOptC_skip hne (pyIsWord_not_quote (hw _ (headI_mem hne)))
  have f3 : mWord1 nm = some (nm, []) := mWord1_all hne hw
  have hbh : pyIsSpace (natStr b ++ ' ' :: (S "LINE CODE IN THE METHOD" ++ ' ' :: nm)).headI
      = false := by
    rw [headI_append (natStr_ne_nil b)]
    exact pyIsDigit_not_space (natStr_digits b _ (headI_mem (natStr_ne_nil b)))
  have hbh2 : pyIsSpace (natStr b ++ ' ' :: (S "LINE CODE IN THE STRUCT" ++ ' ' :: nm)).headI
      = false := by
    rw [headI_append (natStr_ne_nil b)]
    exact pyIsDigit_not_space (natStr_digits b _ (headI_mem (natStr_ne_nil b)))
  have hbh3 : pyIsSpace (natStr b ++ ' ' :: (S "LINE CODE IN THE TRAIT" ++ ' ' :: nm)).headI
      = false := by
    rw [headI_append (natStr_ne_nil b)]
    exact pyIsDigit_not_space (natStr_digits b _ (headI_mem (natStr_ne_nil b)))
  rcases hkwm with rfl | rfl | rfl
  · rw [show (natStr a ++ (S "~" ++ (natStr b ++ (S " LINE CODE IN THE " ++
        (S "METHOD" ++ (S " " ++ nm)))))) =
      natStr a ++ '~' :: (natStr b ++ ' ' :: (S "LINE CODE IN THE METHOD" ++ ' ' :: nm))
      from rfl]
    have g1 : mDigits1 (natStr a ++ '~' ::
        (natStr b ++ ' ' :: (S "LINE CODE IN THE METHOD" ++ ' ' :: nm))) =
        some (natStr a, '~' :: (natStr b ++ ' ' :: (S "LINE CODE IN THE METHOD" ++ ' ' :: nm))) :=
      mDigits1_pre (natStr_digits a) (natStr_ne_nil a) (by decide)
    have g2 : spaces0 ('~' :: (natStr b ++ ' ' :: (S "LINE CODE IN THE METHOD" ++ ' ' :: nm))) =
        '~' :: (natStr b ++ ' ' :: (S "LINE CODE IN THE METHOD" ++ ' ' :: nm)) :=
      by
        apply spaces0_noop
        · simp
        · rfl
    have g3 : matchLitCI (S "~")
        ('~' :: (natStr b ++ ' ' :: (S "LINE CODE IN THE METHOD" ++ ' ' :: nm))) =
        some (natStr b ++ ' ' :: (S "LINE CODE IN THE METHOD" ++ ' ' :: nm)) :=
      matchLitCI_self (S "~") (natStr b ++ ' ' :: (S "LINE CODE IN THE METHOD" ++ ' ' :: nm))
    have g4 : spaces0 (natStr b ++ ' ' :: (S "LINE CODE IN THE METHOD" ++ ' ' :: nm)) =
        natStr b ++ ' ' :: (S "LINE CODE IN THE METHOD" ++ ' ' :: nm) :=
      spaces0_noop (by simp [natStr_ne_nil b]) hbh
    have g5 : mDigits1 (natStr b ++ ' ' :: (S "LINE CODE IN THE METHOD" ++ ' ' :: nm)) =
        some (natStr b, ' ' :: (S "LINE CODE IN THE METHOD" ++ ' ' :: nm)) :=
      mDigits1_pre (natStr_digits b) (natStr_ne_nil b) (by decide)
    have g6 : mSp1 (' ' :: (S "LINE CODE IN THE METHOD" ++ ' ' :: nm)) =
        some ([' '], S "LINE CODE IN THE METHOD" ++ ' ' :: nm) :=
      mSp1_one (by decide) (Or.inr (by
        rw [headI_append (show (S "LINE CODE IN THE METHOD" : Str) ≠ [] by decide)]
        decide))
    have g7 : mWords [S "LINE", S "CODE", S "IN", S "THE", S "METHOD"]
        (S "LINE CODE IN THE METHOD" ++ ' ' :: nm) =
        some (S "LINE CODE IN THE METHOD", ' ' :: nm) := rfl
    unfold matchKindPartialAt
    rw [g1]
    simp [g2, g3, g4, g5, g6, g7, f1, f2, f3,
      show mOptC isQuote ([] : Str) = some ([], []) from rfl]
  · rw [show (natStr a ++ (S "~" ++ (natStr b ++ (S " LINE CODE IN THE " ++
        (S "STRUCT" ++ (S " " ++ nm)))))) =
      natStr a ++ '~' :: (natStr b ++ ' ' :: (S "LINE CODE IN THE STRUCT" ++ ' ' :: nm))
      from rfl]
    have g1 : mDigits1 (natStr a ++ '~' ::
        (natStr b ++ ' ' :: (S "LINE CODE IN THE STRUCT" ++ ' ' :: nm))) =
        some (natStr a, '~' :: (natStr b ++ ' ' :: (S "LINE CODE IN THE STRUCT" ++ ' ' :: nm))) :=
      mDigits1_pre (natStr_digits a) (natStr_ne_nil a) (by decide)
    have g2 : spaces0 ('~' :: (natStr b ++ ' ' :: (S "LINE CODE IN THE STRUCT" ++ ' ' :: nm))) =
        '~' :: (natStr b ++ ' ' :: (S "LINE CODE IN THE STRUCT" ++ ' ' :: nm)) :=
      by
        apply spaces0_noop
        · simp
        · rfl
    have g3 : matchLitCI (S "~")
        ('~' :: (natStr b ++ ' ' :: (S "LINE CODE IN THE STRUCT" ++ ' ' :: nm))) =
        some (natStr b ++ ' ' :: (S "LINE CODE IN THE STRUCT" ++ ' ' :: nm)) :=
      matchLitCI_self (S "~") (natStr b ++ ' ' :: (S "LINE CODE IN THE STRUCT" ++ ' ' :: nm))
    have g4 : spaces0 (natStr b ++ ' ' :: (S "LINE CODE IN THE STRUCT" ++ ' ' :: nm)) =
        natStr b ++ ' ' :: (S "LINE CODE IN THE STRUCT" ++ ' ' :: nm) :=
      spaces0_noop (by simp [natStr_ne_nil b]) hbh2
    have g5 : mDigits1 (natStr b ++ ' ' :: (S "LINE CODE IN THE STRUCT" ++ ' ' :: nm)) =
        some (natStr b, ' ' :: (S "LINE CODE IN THE STRUCT" ++ ' ' :: nm)) :=
      mDigits1_pre (natStr_digits b) (natStr_ne_nil b) (by decide)
    have g6 : mSp1 (' ' :: (S "LINE CODE IN THE STRUCT" ++ ' ' :: nm)) =
        some ([' '], S "LINE CODE IN THE STRUCT" ++ ' ' :: nm) :=
      mSp1_one (by decide) (Or.inr (by
        rw [headI_append (show (S "LINE CODE IN THE STRUCT" : Str) ≠ [] by decide)]
        decide))
    have g7 : mWords [S "LINE", S "CODE", S "IN", S "THE", S "STRUCT"]
        (S "LINE CODE IN THE STRUCT" ++ ' ' :: nm) =
        some (S "LINE CODE IN THE STRUCT", ' ' :: nm) := rfl
    unfold matchKindPartialAt
    rw [g1]
    simp [g2, g3, g4, g5, g6, g7, f1, f2, f3,
      show mOptC isQuote ([] : Str) = some ([], []) from rfl]
  · rw [show (natStr a ++ (S "~" ++ (natStr b ++ (S " LINE CODE IN THE " ++
        (S "TRAIT" ++ (S " " ++ nm)))))) =
      natStr a ++ '~' :: (natStr b ++ ' ' :: (S "LINE CODE IN THE TRAIT" ++ ' ' :: nm))
      from rfl]
    have g1 : mDigits1 (natStr a ++ '~' ::
        (natStr b ++ ' ' :: (S "LINE CODE IN THE TRAIT" ++ ' ' :: nm))) =
        some (natStr a, '~' :: (natStr b ++ ' ' :: (S "LINE CODE IN THE TRAIT" ++ ' ' :: nm))) :=
      mDigits1_pre (natStr_digits a) (natStr_ne_nil a) (by decide)
    have g2 : spaces0 ('~' :: (natStr b ++ ' ' :: (S "LINE CODE IN THE TRAIT" ++ ' ' :: nm))) =
        '~' :: (natStr b ++ ' ' :: (S "LINE CODE IN THE TRAIT" ++ ' ' :: nm)) :=
      by
        apply spaces0_noop
        · simp
        · rfl
    have g3 : matchLitCI (S "~")
        ('~' :: (natStr b ++ ' ' :: (S "LINE CODE IN THE TRAIT" ++ ' ' :: nm))) =
        some (natStr b ++ ' ' :: (S "LINE CODE IN THE TRAIT" ++ ' ' :: nm)) :=
      matchLitCI_self (S "~") (natStr b ++ ' ' :: (S "LINE CODE IN THE TRAIT" ++ ' ' :: nm))
    have g4 : spaces0 (natStr b ++ ' ' :: (S "LINE CODE IN THE TRAIT" ++ ' ' :: nm)) =
        natStr b ++ ' ' :: (S "LINE CODE IN THE TRAIT" ++ ' ' :: nm) :=
      spaces0_noop (by simp [natStr_ne_nil b]) hbh3
    have g5 : mDigits1 (natStr b ++ ' ' :: (S "LINE CODE IN THE TRAIT" ++ ' ' :: nm)) =
        some (natStr b, ' ' :: (S "LINE CODE IN THE TRAIT" ++ ' ' :: nm)) :=
      mDigits1_pre (natStr_digits b) (natStr_ne_nil b) (by decide)
    have g6 : mSp1 (' ' :: (S "LINE CODE IN THE TRAIT" ++ ' ' :: nm)) =
        some ([' '], S "LINE CODE IN THE TRAIT" ++ ' ' :: nm) :=
      mSp1_one (by decide) (Or.inr (by
        rw [headI_append (show (S "LINE CODE IN THE TRAIT" : Str) ≠ [] by decide)]
        decide))
    have g7 : mWords [S "LINE", S "CODE", S "IN", S "THE", S "TRAIT"]
        (S "LINE CODE IN THE TRAIT" ++ ' ' :: nm) =
        some (S "LINE CODE IN THE TRAIT", ' ' :: nm) := rfl
    unfold matchKindPartialAt
    rw [g1]
    simp [g2, g3, g4, g5, g6, g7, f1, f2, f3,
      show mOptC isQuote ([] : Str) = some ([], []) from rfl]

/-- Section detection never fires on a dash line (every keyword starts
with a letter). -/
theorem sectionOf_dash (cs : Str) : sectionOf ('-' :: cs) = none := rfl

theorem beginsWith_dash (cs : Str) : beginsWith (S "-") ('-' :: cs) = true := by
  show List.isPrefixOf ['-'] ('-' :: cs) = true
  simp [List.isPrefixOf]

set_option maxHeartbeats 1600000 in
/-- One parser-loop iteration on a synthesized entry line appends
exactly the expected entry to the current section. -/
theorem parseLine_entry {sec kw : Str}
    (hsec : sec = S "methods" ∨ sec = S "structs" ∨ sec = S "traits")
    (hkwv : kwOfSection sec = kw)
    (hkwm : kw = S "METHOD" ∨ kw = S "STRUCT" ∨ kw = S "TRAIT")
    (p : Parsed) (e : SynEntry) (he : validEntry e) :
    parseLine (some sec, p) (entryBody kw e) = (some sec, addEntry p sec (toCEntry e)) := by
  have hkww : ∀ c ∈ kw, pyIsWord c = true := by rcases hkwm with rfl | rfl | rfl <;> decide
  have hkwlen : kw.length ≤ 10 := by rcases hkwm with rfl | rfl | rfl <;> decide
  have hkwnw : ∀ c ∈ kw, c.toLower ≠ 'w' := by rcases hkwm with rfl | rfl | rfl <;> decide
  obtain ⟨hbne, hbh, hbl, hbnl, hbsep, hbban⟩ := goodLine_entry hkww hkwlen he
  have hstrip : pyStrip (entryBody kw e) = entryBody kw e := pyStrip_noop hbne hbh hbl
  obtain ⟨bs, hb⟩ : ∃ bs, entryBody kw e = '-' :: bs := by
    rcases e with ⟨nm, cov⟩
    rcases cov with _ | ⟨a, b⟩
    · exact ⟨_, rfl⟩
    · exact ⟨_, rfl⟩
  have hsect : sectionOf (entryBody kw e) = none := by rw [hb]; exact sectionOf_dash bs
  have hdash : beginsWith (S "-") (entryBody kw e) = true := by rw [hb]; exact beginsWith_dash bs
  rcases e with ⟨nm, cov⟩
  have hne : nm ≠ [] := he.1
  have hw : ∀ c ∈ nm, pyIsWord c = true := he.2
  rcases cov with _ | ⟨a, b⟩
  · -- whole-coverage entry
    have h0 : entryBody kw ⟨nm, SynCov.whole⟩ =
        S "- " ++ (S "WHOLE CODE IN THE " ++ (kw ++ (S " " ++ nm))) := by
      simp only [entryBody]
      simp only [List.append_assoc]
      rfl
    have hls : lstripDashSp (entryBody kw ⟨nm, SynCov.whole⟩) =
        S "WHOLE CODE IN THE " ++ (kw ++ (S " " ++ nm)) := by
      rw [h0]
      show List.dropWhile (fun c => c = '-' || c = ' ')
          ('-' :: ' ' :: (S "WHOLE CODE IN THE " ++ (kw ++ (S " " ++ nm)))) =
        S "WHOLE CODE IN THE " ++ (kw ++ (S " " ++ nm))
      rw [List.dropWhile_cons, if_pos (by decide), List.dropWhile_cons, if_pos (by decide)]
      rw [show (S "WHOLE CODE IN THE " ++ (kw ++ (S " " ++ nm))) =
          'W' :: (S "HOLE CODE IN THE " ++ (kw ++ (S " " ++ nm))) from rfl]
      rw [List.dropWhile_cons, if_neg (by decide)]
    have hets : pyStrip (lstripDashSp (entryBody kw ⟨nm, SynCov.whole⟩)) =
        S "WHOLE CODE IN THE " ++ (kw ++ (S " " ++ nm)) := by
      rw [hls]
      apply pyStrip_noop
      · rw [show (S "WHOLE CODE IN THE " ++ (kw ++ (S " " ++ nm))) =
            'W' :: (S "HOLE CODE IN THE " ++ (kw ++ (S " " ++ nm))) from rfl]
        simp
      · rfl
      · simp only [List.reverse_append, List.append_assoc]
        rw [headI_append (by simpa using hne)]
        exact pyIsWord_not_space (hw _ (List.mem_reverse.mp (headI_mem (by simpa using hne))))
    have hswE : searchO (matchKindWholeAt kw)
        (S "WHOLE CODE IN THE " ++ (kw ++ (S " " ++ nm))) = some nm := by
      rw [show (S "WHOLE CODE IN THE " ++ (kw ++ (S " " ++ nm))) =
          S "WHOLE CODE IN THE " ++ kw ++ S " " ++ nm from by simp [List.append_assoc]]
      exact searchO_head (matchKindWholeAt_hit hkwm hne hw)
    unfold parseLine
    simp only [hstrip, hsect]
    rw [if_neg (by simp [hdash])]
    rw [if_pos hsec, hkwv, hets, hswE]
    rfl
  · -- partial-coverage entry
    have h0 : entryBody kw ⟨nm, SynCov.part a b⟩ =
        S "- " ++ (natStr a ++ (S "~" ++ (natStr b ++ (S " LINE CODE IN THE " ++
          (kw ++ (S " " ++ nm)))))) := by
      simp only [entryBody]
      simp only [List.append_assoc]
    have hls : lstripDashSp (entryBody kw ⟨nm, SynCov.part a b⟩) =
        natStr a ++ (S "~" ++ (natStr b ++ (S " LINE CODE IN THE " ++
          (kw ++ (S " " ++ nm))))) := by
      rw [h0]
      show List.dropWhile (fun c => c = '-' || c = ' ')
          ('-' :: ' ' :: (natStr a ++ (S "~" ++ (natStr b ++ (S " LINE CODE IN THE " ++
            (kw ++ (S " " ++ nm))))))) =
        natStr a ++ (S "~" ++ (natStr b ++ (S " LINE CODE IN THE " ++ (kw ++ (S " " ++ nm)))))
      rw [List.dropWhile_cons, if_pos (by decide), List.dropWhile_cons, if_pos (by decide)]
      apply dropWhile_of_head_false
      · simp [natStr_ne_nil a]
      · rw [headI_append (natStr_ne_nil a)]
        have hdd := pyIsWord_ne (pyIsDigit_word
          (natStr_digits a _ (headI_mem (natStr_ne_nil a))))
        simp [hdd.2.2.2.1, hdd.2.2.2.2.1]
    have hets : pyStrip (lstripDashSp (entryBody kw ⟨nm, SynCov.part a b⟩)) =
        natStr a ++ (S "~" ++ (natStr b ++ (S " LINE CODE IN THE " ++
          (kw ++ (S " " ++ nm))))) := by
      rw [hls]
      apply pyStrip_noop
      · simp [natStr_ne_nil a]
      · rw [headI_append (natStr_ne_nil a)]
        exact pyIsDigit_not_space (natStr_digits a _ (headI_mem (natStr_ne_nil a)))
      · simp only [List.reverse_append, List.append_assoc]
        rw [headI_append (by simpa using hne)]
        exact pyIsWord_not_space (hw _ (List.mem_reverse.mp (headI_mem (by simpa using hne))))
    unfold parseLine
    simp only [hstrip, hsect]
    rw [if_neg (by simp [hdash])]
    rw [if_pos hsec, hkwv, hets, searchWhole_partial_none hkwnw hw a b,
      searchO_head (matchKindPartialAt_hit hkwm hne hw a b)]
    show ((some sec : Option Str),
        addEntry p sec ⟨nm, S "PARTIAL", some (digitsVal (natStr a)),
          some (digitsVal (natStr b))⟩) =
      (some sec, addEntry p sec (toCEntry ⟨nm, SynCov.part a b⟩))
    rw [digitsVal_natStr, digitsVal_natStr]
    rfl

/-- `TYPE:` lines are inert for the section loop: no section keyword
matches and they carry no dash. -/
theorem parseLine_typeW (st : Option Str × Parsed) :
    parseLine st (S "TYPE: WHOLE CODE IN THIS FILE") = st := rfl

theorem parseLine_typeA (st : Option Str × Parsed) :
    parseLine st (S "TYPE: ABOVE 50% IN THIS FILE") = st := rfl

theorem parseLine_typeD (st : Option Str × Parsed) :
    parseLine st (S "TYPE: DOWN 50% IN THIS FILE") = st := rfl

/-- Section keyword lines switch the current section. -/
theorem parseLine_secM (st : Option Str × Parsed) :
    parseLine st (S "METHOD") = (some (S "methods"), st.2) := rfl

theorem parseLine_secS (st : Option Str × Parsed) :
    parseLine st (S "STRUCT") = (some (S "structs"), st.2) := rfl

theorem parseLine_secT (st : Option Str × Parsed) :
    parseLine st (S "TRAIT") = (some (S "traits"), st.2) := rfl

/-- `RE_TYPE` matches a synthesized `TYPE:` line at position 0. -/
theorem matchTypeAt_whole_line (r : Str) :
    matchTypeAt (S "TYPE: WHOLE CODE IN THIS FILE" ++ '\n' :: r) =
      some (S "WHOLE CODE IN THIS FILE") := rfl

theorem matchTypeAt_above_line (r : Str) :
    matchTypeAt (S "TYPE: ABOVE 50% IN THIS FILE" ++ '\n' :: r) =
      some (S "ABOVE 50% IN THIS FILE") := rfl

theorem matchTypeAt_down_line (r : Str) :
    matchTypeAt (S "TYPE: DOWN 50% IN THIS FILE" ++ '\n' :: r) =
      some (S "DOWN 50% IN THIS FILE") := rfl

/-- Classification of a synthesized header: the parser recovers exactly
the synthesized class. -/
theorem parsedType_inner (c : SynClass) (ms ss ts : List SynEntry)
    (hm : ∀ e ∈ ms, validEntry e) (hs : ∀ e ∈ ss, validEntry e)
    (ht : ∀ e ∈ ts, validEntry e) :
    parsedType (joinNL (innerLines c ms ss ts)) = classOf c := by
  cases c with
  | whole =>
    have hre : reTypeSearch (joinNL (innerLines SynClass.whole ms ss ts)) =
        some (S "WHOLE CODE IN THIS FILE") := by
      unfold reTypeSearch
      rw [show joinNL (innerLines SynClass.whole ms ss ts) =
          S "TYPE: WHOLE CODE IN THIS FILE" ++ '\n' :: joinNL ([S "METHOD"] ++
            ms.map (entryBody (S "METHOD")) ++ [S "STRUCT"] ++
            ss.map (entryBody (S "STRUCT")) ++
            [S "TRAIT"] ++ ts.map (entryBody (S "TRAIT"))) from rfl]
      exact searchO_head (matchTypeAt_whole_line _)
    unfold parsedType
    rw [hre]
    decide
  | above =>
    have hre : reTypeSearch (joinNL (innerLines SynClass.above ms ss ts)) =
        some (S "ABOVE 50% IN THIS FILE") := by
      unfold reTypeSearch
      rw [show joinNL (innerLines SynClass.above ms ss ts) =
          S "TYPE: ABOVE 50% IN THIS FILE" ++ '\n' :: joinNL ([S "METHOD"] ++
            ms.map (entryBody (S "METHOD")) ++ [S "STRUCT"] ++
            ss.map (entryBody (S "STRUCT")) ++
            [S "TRAIT"] ++ ts.map (entryBody (S "TRAIT"))) from rfl]
      exact searchO_head (matchTypeAt_above_line _)
    unfold parsedType
    rw [hre]
    decide
  | below =>
    have hre : reTypeSearch (joinNL (innerLines SynClass.below ms ss ts)) =
        some (S "DOWN 50% IN THIS FILE") := by
      unfold reTypeSearch
      rw [show joinNL (innerLines SynClass.below ms ss ts) =
          S "TYPE: DOWN 50% IN THIS FILE" ++ '\n' :: joinNL ([S "METHOD"] ++
            ms.map (entryBody (S "METHOD")) ++ [S "STRUCT"] ++
            ss.map (entryBody (S "STRUCT")) ++
            [S "TRAIT"] ++ ts.map (entryBody (S "TRAIT"))) from rfl]
      exact searchO_head (matchTypeAt_down_line _)
    unfold parsedType
    rw [hre]
    decide
  | unknown =>
    have hnc : ':' ∉ joinNL (innerLines SynClass.unknown ms ss ts) := by
      intro hch
      rcases mem_joinNL hch with heq | ⟨l, hl, hcl⟩
      · exact absurd heq (by decide)
      · simp only [innerLines, typeLinesOf, List.append_assoc, List.nil_append,
          List.mem_append, List.mem_singleton, List.mem_map] at hl
        rcases hl with rfl | ⟨e, he, rfl⟩ | rfl | ⟨e, he, rfl⟩ | rfl | ⟨e, he, rfl⟩
        · exact absurd hcl (by decide)
        · rcases entryBody_chars (by decide) (hm e he) ':' hcl with h | h | h | h <;>
            revert h <;> decide
        · exact absurd hcl (by decide)
        · rcases entryBody_chars (by decide) (hs e he) ':' hcl with h | h | h | h <;>
            revert h <;> decide
        · exact absurd hcl (by decide)
        · rcases entryBody_chars (by decide) (ht e he) ':' hcl with h | h | h | h <;>
            revert h <;> decide
    have hre : reTypeSearch (joinNL (innerLines SynClass.unknown ms ss ts)) = none :=
      reTypeSearch_none_noColon (fun ch hch hcheq => hnc (hcheq ▸ hch))
    unfold parsedType
    rw [hre]
    rfl

theorem foldl_typeLines (c : SynClass) (st : Option Str × Parsed) :
    List.foldl parseLine st (typeLinesOf c) = st := by
  cases c <;>
    simp only [typeLinesOf, List.foldl_cons, List.foldl_nil,
      parseLine_typeW, parseLine_typeA, parseLine_typeD]

theorem foldl_secM (st : Option Str × Parsed) :
    List.foldl parseLine st [S "METHOD"] = (some (S "methods"), st.2) := by
  simp only [List.foldl_cons, List.foldl_nil, parseLine_secM]

theorem foldl_secS (st : Option Str × Parsed) :
    List.foldl parseLine st [S "STRUCT"] = (some (S "structs"), st.2) := by
  simp only [List.foldl_cons, List.foldl_nil, parseLine_secS]

theorem foldl_secT (st : Option Str × Parsed) :
    List.foldl parseLine st [S "TRAIT"] = (some (S "traits"), st.2) := by
  simp only [List.foldl_cons, List.foldl_nil, parseLine_secT]

/-- Folding the parser loop over a section's synthesized entry lines
appends exactly the expected entries. -/
theorem foldl_entries {sec kw : Str}
    (hsec : sec = S "methods" ∨ sec = S "structs" ∨ sec = S "traits")
    (hkwv : kwOfSection sec = kw)
    (hkwm : kw = S "METHOD" ∨ kw = S "STRUCT" ∨ kw = S "TRAIT")
    (es : List SynEntry) (hval : ∀ e ∈ es, validEntry e) (p : Parsed) :
    List.foldl parseLine (some sec, p) (es.map (entryBody kw)) =
      (some sec, es.foldl (fun q e => addEntry q sec (toCEntry e)) p) := by
  induction es generalizing p with
  | nil => rfl
  | cons e es ih =>
    simp only [List.map_cons, List.foldl_cons]
    rw [parseLine_entry hsec hkwv hkwm p e (hval e (by simp))]
    exact ih (fun x hx => hval x (by simp [hx])) _

theorem foldl_addEntry_m (es : List SynEntry) (p : Parsed) :
    es.foldl (fun q e => addEntry q (S "methods") (toCEntry e)) p =
      { p with methods := p.methods ++ es.map toCEntry } := by
  induction es generalizing p with
  | nil => simp
  | cons e es ih =>
    simp only [List.foldl_cons, List.map_cons]
    have ha : addEntry p (S "methods") (toCEntry e) =
        { p with methods := p.methods ++ [toCEntry e] } := by
      unfold addEntry
      rw [if_pos rfl]
    rw [ha, ih]
    simp

theorem foldl_addEntry_s (es : List SynEntry) (p : Parsed) :
    es.foldl (fun q e => addEntry q (S "structs") (toCEntry e)) p =
      { p with structs := p.structs ++ es.map toCEntry } := by
  induction es generalizing p with
  | nil => simp
  | cons e es ih =>
    simp only [List.foldl_cons, List.map_cons]
    have ha : addEntry p (S "structs") (toCEntry e) =
        { p with structs := p.structs ++ [toCEntry e] } := by
      unfold addEntry
      rw [if_neg (by decide), if_pos rfl]
    rw [ha, ih]
    simp

theorem foldl_addEntry_t (es : List SynEntry) (p : Parsed) :
    es.foldl (fun q e => addEntry q (S "traits") (toCEntry e)) p =
      { p with traits := p.traits ++ es.map toCEntry } := by
  induction es generalizing p with
  | nil => simp
  | cons e es ih =>
    simp only [List.foldl_cons, List.map_cons]
    have ha : addEntry p (S "traits") (toCEntry e) =
        { p with traits := p.traits ++ [toCEntry e] } := by
      unfold addEntry
      rw [if_neg (by decide), if_neg (by decide)]
    rw [ha, ih]
    simp

/-- Parsing the joined inner lines of a synthesized header recovers the
class and the three entry lists. -/
theorem synthesize_parse (c : SynClass) (ms ss ts : List SynEntry)
    (hm : ∀ e ∈ ms, validEntry e) (hs : ∀ e ∈ ss, validEntry e)
    (ht : ∀ e ∈ ts, validEntry e) :
    parse_header (joinNL (innerLines c ms ss ts)) =
      ⟨classOf c, ms.map toCEntry, ss.map toCEntry, ts.map toCEntry, []⟩ := by
  have hnl : ∀ l ∈ innerLines c ms ss ts, '\n' ∉ l :=
    fun l hl => (goodLine_inner hm hs ht l hl).2.2.2.1
  unfold parse_header
  rw [splitNL_joinNL _ (innerLines_ne_nil c ms ss ts) hnl,
    parsedType_inner c ms ss ts hm hs ht]
  unfold innerLines
  simp only [List.foldl_append]
  rw [foldl_typeLines, foldl_secM,
    foldl_entries (Or.inl rfl) (by decide) (Or.inl rfl) ms hm,
    foldl_addEntry_m, foldl_secS,
    foldl_entries (Or.inr (Or.inl rfl)) (by decide) (Or.inr (Or.inl rfl)) ss hs,
    foldl_addEntry_s, foldl_secT,
    foldl_entries (Or.inr (Or.inr rfl)) (by decide) (Or.inr (Or.inr rfl)) ts ht,
    foldl_addEntry_t]
  simp

/-- C9: for every classification and every set of grammatical coverage
entries (nonempty word-character names; whole-coverage or bounded
partial coverage), a header synthesized from them in the wire format -
banner line, separators, `TYPE:` line, section keywords, dash-prefixed
entry lines - when run through the extractor and then the parser yields
back the same classification and the same entry set (names, kinds,
coverages and line bounds). -/
theorem C9_roundtrip (c : SynClass) (ms ss ts : List SynEntry)
    (hm : ∀ e ∈ ms, validEntry e) (hs : ∀ e ∈ ss, validEntry e)
    (ht : ∀ e ∈ ts, validEntry e) :
    ∃ h, extract_header_block (synthesize c ms ss ts) Family.hash = some h ∧
      parse_header h =
        ⟨classOf c, ms.map toCEntry, ss.map toCEntry, ts.map toCEntry, []⟩ :=
  ⟨joinNL (innerLines c ms ss ts), synthesize_extract c ms ss ts hm hs ht,
    synthesize_parse c ms ss ts hm hs ht⟩

instance validEntry.dec (e : SynEntry) : Decidable (validEntry e) := by
  unfold validEntry
  infer_instance

/-- C9 witness: a concrete ABOVE_50 header with a whole-coverage method,
a partial-coverage method and a partial-coverage struct round-trips. -/
theorem C9_witness :
    (∀ e ∈ ([⟨S "alpha", SynCov.whole⟩, ⟨S "beta", SynCov.part 3 17⟩] : List SynEntry),
      validEntry e) ∧
    (∀ e ∈ ([⟨S "gamma", SynCov.part 120 248⟩] : List SynEntry), validEntry e) ∧
    (∀ e ∈ ([] : List SynEntry), validEntry e) ∧
    (∃ h, extract_header_block (synthesize SynClass.above
        [⟨S "alpha", SynCov.whole⟩, ⟨S "beta", SynCov.part 3 17⟩]
        [⟨S "gamma", SynCov.part 120 248⟩] []) Family.hash = some h ∧
      parse_header h = ⟨some (S "ABOVE_50"),
        [⟨S "alpha", S "WHOLE", none, none⟩, ⟨S "beta", S "PARTIAL", some 3, some 17⟩],
        [⟨S "gamma", S "PARTIAL", some 120, some 248⟩], [], []⟩) :=
  ⟨by decide, by decide, by decide,
    C9_roundtrip SynClass.above
      [⟨S "alpha", SynCov.whole⟩, ⟨S "beta", SynCov.part 3 17⟩]
      [⟨S "gamma", SynCov.part 120 248⟩] [] (by decide) (by decide) (by decide)⟩
